import Mathlib

/-!
Shallow embedding of the tkinter calculator (`model_10&11.py`).

The core is `SafeEvaluator`: `ast.parse(expr, mode="eval")` followed by a
recursive tree walk `_eval_node` that only accepts `ast.BinOp` with an
operator listed in `_bin_ops`, `ast.UnaryOp` with an operator listed in
`_unary_ops`, and `ast.Constant` whose value is an `int` or `float`
(which in Python includes `bool`, a subclass of `int`).

Modelling choices, stated once:
* Python numbers are modelled exactly: `int` as `Int`, `float` as an exact
  rational (`ℚ`).  IEEE-754 rounding, infinities, NaN and overflow are not
  modelled; no claim settled below depends on them, and the one claim that
  does (round-tripping the decimal rendering of a float result) is reported
  as not statable in this embedding.
* `**` with a fractional exponent produces an irrational `float` (or a
  `complex`) in the host and is therefore kept abstract: the evaluator is
  parameterised by a function `fracPow` giving the outcome of those
  applications, and every theorem that could reach such an application is
  universally quantified over `fracPow`.  (The host's only
  `ZeroDivisionError` for `**` — zero base, negative exponent — is checked
  before `fracPow` is consulted, matching CPython.)
* `ast.parse` is modelled by a tokenizer and recursive-descent parser for
  the fragment of Python's expression grammar reachable from calculator
  input: numeric literals, string literals, identifiers (with the keywords
  `True`/`False`/`None` giving constants), calls, parentheses, unary
  `+ - ~` and binary `+ - * / % // **`, with Python's precedence
  (`**` binds tighter than unary sign on its left; its right operand is a
  `factor`).  Inputs outside the fragment fail to parse, which the wrapper
  maps to the same `InvalidExpression` error that `SyntaxError` is mapped
  to in the source.
* Numeric literals follow CPython's grammar: decimal integers must not
  have a leading zero unless every digit is zero (`007` is a syntax
  error, `00` is not), single underscores may group digits (`1_0` = 10,
  while `1__0` and `1_` are syntax errors), `0x`/`0b`/`0o` prefixes give
  hexadecimal, binary and octal integers (with an optional underscore
  after the prefix, `0x_ff`), and floats take an optional fraction and
  exponent with the same underscore grouping.  Imaginary literals (`1j`)
  are rejected by the lexer; in the host they parse but their `complex`
  value fails the `Constant` type check, giving the same
  `InvalidExpression` outcome.
-/

namespace TkCalc

/-- Python numeric value flowing through `_eval_node`: a `bool`, an `int`,
or a `float` (modelled as an exact rational). -/
inductive PyNum where
  | bool (b : Bool)
  | int (n : Int)
  | float (q : ℚ)
deriving DecidableEq

namespace PyNum

/-- Numeric content of a value (Python's coercion of `bool` to `int`). -/
def toQ : PyNum → ℚ
  | .bool b => if b then 1 else 0
  | .int n => n
  | .float q => q

/-- Is the value a `float`? -/
def isFloat : PyNum → Bool
  | .float _ => true
  | _ => false

/-- Python treats `bool` and `int` operands alike in arithmetic; this
returns the integer content when the value is not a `float`. -/
def intLike : PyNum → Option Int
  | .bool b => some (if b then 1 else 0)
  | .int n => some n
  | .float _ => none

end PyNum

/-- Exceptions that can be raised inside `SafeEvaluator.eval`'s `try`
block: `ZeroDivisionError`, or anything else (`ValueError`, `SyntaxError`,
`TypeError`, ...) which the source collapses into one generic case. -/
inductive EvalErr where
  | zeroDiv
  | other
deriving DecidableEq

/-- The two error kinds surfaced by `SafeEvaluator.eval`:
`ZeroDivisionError("Division by zero is not allowed.")` and
`ValueError("Invalid expression")`. -/
inductive CalcErr where
  | divisionByZero
  | invalidExpression
deriving DecidableEq

/-- The fixed message carried by each surfaced error. -/
def CalcErr.message : CalcErr → String
  | .divisionByZero => "Division by zero is not allowed."
  | .invalidExpression => "Invalid expression"

/-- Model of `operator.add` on calculator operands: integer (or bool) operands stay
integer, any `float` operand makes the result `float`. -/
def pyAdd (a b : PyNum) : PyNum :=
  match a.intLike, b.intLike with
  | some m, some n => .int (m + n)
  | _, _ => .float (a.toQ + b.toQ)

/-- Model of `operator.sub`. -/
def pySub (a b : PyNum) : PyNum :=
  match a.intLike, b.intLike with
  | some m, some n => .int (m - n)
  | _, _ => .float (a.toQ - b.toQ)

/-- Model of `operator.mul`. -/
def pyMul (a b : PyNum) : PyNum :=
  match a.intLike, b.intLike with
  | some m, some n => .int (m * n)
  | _, _ => .float (a.toQ * b.toQ)

/-- Model of `operator.truediv`: always a `float` result; `ZeroDivisionError` on a
zero right operand. -/
def pyDiv (a b : PyNum) : Except EvalErr PyNum :=
  if b.toQ = 0 then .error .zeroDiv
  else .ok (.float (a.toQ / b.toQ))

/-- Python's floor-based modulo on exact numbers: `a - b * ⌊a / b⌋`. -/
def qfmod (a b : ℚ) : ℚ := a - b * ⌊a / b⌋

/-- Model of `operator.mod`: `ZeroDivisionError` on a zero right operand; on
integers the result is `Int.fmod` (floor-division remainder, the Python
`%`), on floats the floor-based remainder. -/
def pyMod (a b : PyNum) : Except EvalErr PyNum :=
  if b.toQ = 0 then .error .zeroDiv
  else
    match a.intLike, b.intLike with
    | some m, some n => .ok (.int (Int.fmod m n))
    | _, _ => .ok (.float (qfmod a.toQ b.toQ))

/-- Model of `operator.pow`: `ZeroDivisionError` for a zero base and negative
exponent (CPython: "0.0 cannot be raised to a negative power"); exact
integer/rational powers for integral exponents (`int ** negative int` is a
`float`, as in Python); fractional exponents delegated to the abstract
host-float `fracPow`. -/
def pyPow (fracPow : ℚ → ℚ → Except EvalErr PyNum) (a b : PyNum) :
    Except EvalErr PyNum :=
  if a.toQ = 0 ∧ b.toQ < 0 then .error .zeroDiv
  else
    match a.intLike, b.intLike with
    | some m, some n =>
      if 0 ≤ n then .ok (.int (m ^ n.toNat))
      else .ok (.float ((m : ℚ) ^ n))
    | _, _ =>
      if b.toQ.den = 1 then .ok (.float (a.toQ ^ b.toQ.num))
      else fracPow a.toQ b.toQ

/-- Model of `operator.pos`: identity on the value, but `bool` is promoted to
`int` (as `+True == 1` in Python). -/
def pyPos : PyNum → PyNum
  | .bool b => .int (if b then 1 else 0)
  | .int n => .int n
  | .float q => .float q

/-- Model of `operator.neg` (`-True == -1` in Python). -/
def pyNeg : PyNum → PyNum
  | .bool b => .int (-(if b then 1 else 0))
  | .int n => .int (-n)
  | .float q => .float (-q)

/-- Binary operator node kinds producible by the parser (`ast.Add`,
`ast.Sub`, `ast.Mult`, `ast.Div`, `ast.Mod`, `ast.Pow`, and `ast.FloorDiv`
which is *not* in `_bin_ops`). -/
inductive BinOpKind where
  | add | sub | mult | div | mod | pow | floorDiv
deriving DecidableEq

/-- Unary operator node kinds (`ast.UAdd`, `ast.USub`, and `ast.Invert`
which is *not* in `_unary_ops`). -/
inductive UnaryOpKind where
  | uadd | usub | invert
deriving DecidableEq

/-- Values an `ast.Constant` can carry here: `int`, `float`, `bool`
(Python parses `True`/`False` to bool constants), `str`, `None`. -/
inductive PyConst where
  | intC (n : Int)
  | floatC (q : ℚ)
  | boolC (b : Bool)
  | strC (s : String)
  | noneC
deriving DecidableEq

/-- The source's guard `isinstance(node.value, (int, float))`.  Python's
`bool` is a subclass of `int`, so bool constants pass. -/
def PyConst.isNum : PyConst → Bool
  | .intC _ => true
  | .floatC _ => true
  | .boolC _ => true
  | .strC _ => false
  | .noneC => false

/-- The numeric value of a constant that passed `isNum` (arbitrary on the
non-numeric constants, which `_eval_node` rejects before reading a value). -/
def PyConst.val : PyConst → PyNum
  | .intC n => .int n
  | .floatC q => .float q
  | .boolC b => .bool b
  | .strC _ => .int 0
  | .noneC => .int 0

/-- Abstract syntax tree of the parsed expression (`ast.BinOp`,
`ast.UnaryOp`, `ast.Constant`, `ast.Name`, `ast.Call`). -/
inductive PyExpr where
  | binOp (op : BinOpKind) (l r : PyExpr)
  | unaryOp (op : UnaryOpKind) (e : PyExpr)
  | const (c : PyConst)
  | name (id : String)
  | call (f : PyExpr) (args : List PyExpr)

namespace SafeEvaluator

/-- The `_bin_ops` dispatch table keyed by operator node type; kinds not
listed in the source's table map to `none`. -/
def _bin_ops (fracPow : ℚ → ℚ → Except EvalErr PyNum) :
    BinOpKind → Option (PyNum → PyNum → Except EvalErr PyNum)
  | .add => some (fun a b => .ok (pyAdd a b))
  | .sub => some (fun a b => .ok (pySub a b))
  | .mult => some (fun a b => .ok (pyMul a b))
  | .div => some pyDiv
  | .mod => some pyMod
  | .pow => some (pyPow fracPow)
  | .floorDiv => none

/-- The `_unary_ops` dispatch table. -/
def _unary_ops : UnaryOpKind → Option (PyNum → PyNum)
  | .uadd => some pyPos
  | .usub => some pyNeg
  | .invert => none

/-- The source's `SafeEvaluator._eval_node`: accept a `BinOp` whose operator is in
`_bin_ops` (left operand evaluated before the right), a `UnaryOp` whose
operator is in `_unary_ops`, and an `int`/`float` constant; raise
`ValueError("Unsupported expression")` on everything else. -/
def _eval_node (fracPow : ℚ → ℚ → Except EvalErr PyNum) :
    PyExpr → Except EvalErr PyNum
  | .binOp op l r =>
    match _bin_ops fracPow op with
    | some f => do
      let a ← _eval_node fracPow l
      let b ← _eval_node fracPow r
      f a b
    | none => .error .other
  | .unaryOp op e =>
    match _unary_ops op with
    | some f => do
      let a ← _eval_node fracPow e
      pure (f a)
    | none => .error .other
  | .const c => if c.isNum then .ok c.val else .error .other
  | .name _ => .error .other
  | .call _ _ => .error .other

end SafeEvaluator

/-! ## Tokenizer

Model of the lexical structure `ast.parse` gives to calculator input:
whitespace-separated numeric literals, string literals, identifiers and
operator/punctuation tokens. -/

/-- Token stream elements. -/
inductive Tok where
  | num (c : PyConst)
  | name (s : String)
  | str (s : String)
  | plus | minus | star | slash | percent | dstar | dslash | tilde
  | lparen | rparen | comma
deriving DecidableEq

/-- First character of an identifier. -/
def isIdentStart (c : Char) : Bool := c.isAlpha || c = '_'

/-- Continuation character of an identifier (also what may *not* directly
follow a numeric literal: `12abc` is "invalid decimal literal"). -/
def isIdentChar (c : Char) : Bool := c.isAlphanum || c = '_'

/-- Numeric value of a digit character. -/
def digitVal (c : Char) : Nat := c.toNat - 48

/-- Decimal value of a digit run. -/
def natFromDigits (ds : List Char) : Nat :=
  ds.foldl (fun acc c => acc * 10 + digitVal c) 0

/-- Continue a digit run that has already begun: further digits, with
single underscores permitted between digits (Python's digit grouping,
`1_0`); the returned digit list has the underscores removed.  A trailing
or doubled underscore is left in the remainder, where the
`noIdentHead` check then rejects it, as CPython does for `1_` / `1__0`. -/
def takeUDigitsRest (isD : Char → Bool) : List Char → List Char × List Char
  | [] => ([], [])
  | c :: cs =>
    if isD c then
      let p := takeUDigitsRest isD cs
      (c :: p.1, p.2)
    else if c = '_' then
      match cs with
      | d :: _ =>
        if isD d then takeUDigitsRest isD cs
        else ([], c :: cs)
      | [] => ([], [c])
    else ([], c :: cs)

/-- Split a leading digit run with underscore grouping; the run must
start with a digit (`_1` is an identifier, `e_5` has no exponent
digits). -/
def takeUDigits (isD : Char → Bool) : List Char → List Char × List Char
  | [] => ([], [])
  | c :: cs =>
    if isD c then
      let p := takeUDigitsRest isD cs
      (c :: p.1, p.2)
    else ([], c :: cs)

/-- CPython's restriction on decimal integer literals: leading zeros are
not permitted (`007` is a `SyntaxError`) unless every digit is zero
(`0`, `00` are fine). -/
def validDecInt (ds : List Char) : Bool :=
  match ds with
  | [] => true
  | c :: rest => if c = '0' then rest.all (fun d => d = '0') else true

/-- Hexadecimal digit. -/
def isHexDig (c : Char) : Bool :=
  c.isDigit || ('a' ≤ c && c ≤ 'f') || ('A' ≤ c && c ≤ 'F')

/-- Binary digit. -/
def isBinDig (c : Char) : Bool := c = '0' || c = '1'

/-- Octal digit. -/
def isOctDig (c : Char) : Bool := '0' ≤ c && c ≤ '7'

/-- Value of a (possibly hexadecimal) digit character. -/
def hexDigitVal (c : Char) : Nat :=
  if c.isDigit then c.toNat - 48
  else if 'a' ≤ c && c ≤ 'f' then c.toNat - 87
  else c.toNat - 55

/-- Value of a digit run in the given base. -/
def natFromBase (base : Nat) (ds : List Char) : Nat :=
  ds.foldl (fun acc c => acc * base + hexDigitVal c) 0

/-- Split a leading run of identifier characters. -/
def takeIdent : List Char → List Char × List Char
  | [] => ([], [])
  | c :: cs =>
    if isIdentChar c then
      let p := takeIdent cs
      (c :: p.1, p.2)
    else ([], c :: cs)

/-- Scan a string literal body up to the closing quote `q`; `none` when
the literal is unterminated. -/
def takeStr (q : Char) : List Char → Option (List Char × List Char)
  | [] => none
  | c :: cs =>
    if c = q then some ([], cs)
    else
      match takeStr q cs with
      | none => none
      | some (s, r) => some (c :: s, r)

/-- Scan the mandatory digit run of an exponent whose `e` and sign have
been consumed. -/
def lexExpDigits (sgn : Int) (cs : List Char) : Option (Option Int × List Char) :=
  let p := takeUDigits Char.isDigit cs
  if p.1.isEmpty then none
  else some (some (sgn * (natFromDigits p.1 : Int)), p.2)

/-- Scan an optional exponent part (`e`/`E`, optional sign, digits); the
digits are mandatory once the `e` is seen (`1e` is malformed). -/
def lexExponent : List Char → Option (Option Int × List Char)
  | [] => some (none, [])
  | c :: cs =>
    if c = 'e' || c = 'E' then
      match cs with
      | [] => lexExpDigits 1 []
      | c2 :: u =>
        if c2 = '+' then lexExpDigits 1 u
        else if c2 = '-' then lexExpDigits (-1) u
        else lexExpDigits 1 (c2 :: u)
    else some (none, c :: cs)

/-- Assemble the numeric constant from integer part, fractional part and
exponent: an `int` when there is no dot and no exponent, else a `float`
(exact rational value of the decimal literal). -/
def mkNumber (ip fp : List Char) (hasDot : Bool) (ex : Option Int) : PyConst :=
  if !hasDot && ex = none then .intC (natFromDigits ip)
  else
    .floatC (((natFromDigits ip : ℚ) + (natFromDigits fp : ℚ) / 10 ^ fp.length) *
      10 ^ ex.getD 0)

/-- Scan an optional fractional part (`.` followed by digits). -/
def lexFrac : List Char → List Char × Bool × List Char
  | [] => ([], false, [])
  | c :: t =>
    if c = '.' then
      let p := takeUDigits Char.isDigit t
      (p.1, true, p.2)
    else ([], false, c :: t)

/-- May this input directly follow a numeric literal?  (`12abc` is an
"invalid decimal literal" in Python.) -/
def noIdentHead : List Char → Bool
  | [] => true
  | c :: _ => !isIdentChar c

/-- Lex a radix-prefixed integer literal (`0x…`, `0b…`, `0o…`), the
two-character prefix already consumed: one optional underscore directly
after the prefix (`0x_ff`), then a grouped digit run in the base. -/
def lexRadix (isD : Char → Bool) (base : Nat) (cs : List Char) :
    Option (PyConst × List Char) :=
  let p :=
    match cs with
    | c :: t => if c = '_' then takeUDigits isD t else takeUDigits isD (c :: t)
    | [] => takeUDigits isD []
  if p.1.isEmpty then none
  else if noIdentHead p.2 then some (.intC (natFromBase base p.1), p.2) else none

/-- Lex a decimal numeric literal from the head of the input (the head
is known to start one): grouped digits, optional `.digits`, optional
exponent; it must not be directly followed by an identifier character,
and a plain integer literal may not have leading zeros. -/
def lexDecimal (cs : List Char) : Option (PyConst × List Char) :=
  let p1 := takeUDigits Char.isDigit cs
  let fr := lexFrac p1.2
  if p1.1.isEmpty && fr.1.isEmpty then none
  else
    match lexExponent fr.2.2 with
    | none => none
    | some (ex, r3) =>
      if noIdentHead r3 then
        if !fr.2.1 && ex = none && !validDecInt p1.1 then none
        else some (mkNumber p1.1 fr.1 fr.2.1 ex, r3)
      else none

/-- Lex one numeric literal: a `0x`/`0b`/`0o` radix literal or a decimal
literal.  (Imaginary literals such as `1j` are collapsed into lexer
rejection here; in CPython they lex, but their complex `Constant` is then
rejected by `_eval_node`, so `eval` reports the same InvalidExpression
either way.) -/
def lexNumber (cs : List Char) : Option (PyConst × List Char) :=
  match cs with
  | c1 :: c2 :: t =>
    if c1 = '0' && (c2 = 'x' || c2 = 'X') then lexRadix isHexDig 16 t
    else if c1 = '0' && (c2 = 'b' || c2 = 'B') then lexRadix isBinDig 2 t
    else if c1 = '0' && (c2 = 'o' || c2 = 'O') then lexRadix isOctDig 8 t
    else lexDecimal (c1 :: c2 :: t)
  | _ => lexDecimal cs

/-- Does the input start a numeric literal (digit, or dot followed by a
digit)? -/
def startsNumber : List Char → Bool
  | [] => false
  | c :: cs =>
    c.isDigit ||
      (c = '.' &&
        match cs with
        | d :: _ => d.isDigit
        | [] => false)

/-- Fuel-indexed tokenizer loop; fuel `length + 1` always suffices since
every emitted token consumes at least one character. -/
def tokenizeAux : Nat → List Char → Option (List Tok)
  | 0, _ => none
  | _, [] => some []
  | fuel + 1, c :: cs =>
    if c = ' ' || c = '\t' then tokenizeAux fuel cs
    else if startsNumber (c :: cs) then
      match lexNumber (c :: cs) with
      | none => none
      | some (k, rest) => (tokenizeAux fuel rest).map (Tok.num k :: ·)
    else if isIdentStart c then
      let p := takeIdent cs
      (tokenizeAux fuel p.2).map (Tok.name (String.mk (c :: p.1)) :: ·)
    else if c = '\'' || c = '"' then
      match takeStr c cs with
      | none => none
      | some (s, rest) => (tokenizeAux fuel rest).map (Tok.str (String.mk s) :: ·)
    else if c = '*' then
      match cs with
      | c2 :: t =>
        if c2 = '*' then (tokenizeAux fuel t).map (Tok.dstar :: ·)
        else (tokenizeAux fuel (c2 :: t)).map (Tok.star :: ·)
      | [] => (tokenizeAux fuel []).map (Tok.star :: ·)
    else if c = '/' then
      match cs with
      | c2 :: t =>
        if c2 = '/' then (tokenizeAux fuel t).map (Tok.dslash :: ·)
        else (tokenizeAux fuel (c2 :: t)).map (Tok.slash :: ·)
      | [] => (tokenizeAux fuel []).map (Tok.slash :: ·)
    else if c = '+' then (tokenizeAux fuel cs).map (Tok.plus :: ·)
    else if c = '-' then (tokenizeAux fuel cs).map (Tok.minus :: ·)
    else if c = '%' then (tokenizeAux fuel cs).map (Tok.percent :: ·)
    else if c = '~' then (tokenizeAux fuel cs).map (Tok.tilde :: ·)
    else if c = '(' then (tokenizeAux fuel cs).map (Tok.lparen :: ·)
    else if c = ')' then (tokenizeAux fuel cs).map (Tok.rparen :: ·)
    else if c = ',' then (tokenizeAux fuel cs).map (Tok.comma :: ·)
    else none

/-- Tokenize a list of characters with sufficient fuel. -/
def tokenizeL (cs : List Char) : Option (List Tok) :=
  tokenizeAux (cs.length + 1) cs

/-- Tokenize an input string. -/
def tokenize (s : String) : Option (List Tok) := tokenizeL s.data

/-! ## Parser

Recursive-descent parser mirroring Python's expression grammar for the
reachable fragment:

* `sum    := term (('+' | '-') term)*` (left-associative)
* `term   := factor (('*' | '/' | '%' | '//') factor)*` (left-associative)
* `factor := ('+' | '-' | '~') factor | power`
* `power  := postfix ['**' factor]` (so `**` is right-associative and
  binds tighter than a unary sign on its left, while its right operand
  may itself be signed)
* `postfix := atom ('(' args ')')*`
* `atom   := NUMBER | STRING | NAME | '(' sum ')'` with the keywords
  `True`, `False`, `None` lexed as names and parsed as constants.

All functions are fuel-indexed; every recursive call happens on a token
suffix, and the entry point supplies ample fuel. -/

mutual

/-- Parse a `sum` (lowest-precedence level). -/
def parseSum : Nat → List Tok → Option (PyExpr × List Tok)
  | 0, _ => none
  | fuel + 1, toks =>
    match parseTerm fuel toks with
    | some (e, rest) => parseSumRest fuel e rest
    | none => none

/-- Left-associative continuation of a `sum`. -/
def parseSumRest : Nat → PyExpr → List Tok → Option (PyExpr × List Tok)
  | 0, _, _ => none
  | fuel + 1, acc, toks =>
    match toks with
    | .plus :: t =>
      match parseTerm fuel t with
      | some (e, rest) => parseSumRest fuel (.binOp .add acc e) rest
      | none => none
    | .minus :: t =>
      match parseTerm fuel t with
      | some (e, rest) => parseSumRest fuel (.binOp .sub acc e) rest
      | none => none
    | _ => some (acc, toks)

/-- Parse a `term`. -/
def parseTerm : Nat → List Tok → Option (PyExpr × List Tok)
  | 0, _ => none
  | fuel + 1, toks =>
    match parseFactor fuel toks with
    | some (e, rest) => parseTermRest fuel e rest
    | none => none

/-- Left-associative continuation of a `term`. -/
def parseTermRest : Nat → PyExpr → List Tok → Option (PyExpr × List Tok)
  | 0, _, _ => none
  | fuel + 1, acc, toks =>
    match toks with
    | .star :: t =>
      match parseFactor fuel t with
      | some (e, rest) => parseTermRest fuel (.binOp .mult acc e) rest
      | none => none
    | .slash :: t =>
      match parseFactor fuel t with
      | some (e, rest) => parseTermRest fuel (.binOp .div acc e) rest
      | none => none
    | .percent :: t =>
      match parseFactor fuel t with
      | some (e, rest) => parseTermRest fuel (.binOp .mod acc e) rest
      | none => none
    | .dslash :: t =>
      match parseFactor fuel t with
      | some (e, rest) => parseTermRest fuel (.binOp .floorDiv acc e) rest
      | none => none
    | _ => some (acc, toks)

/-- Parse a `factor` (possibly signed). -/
def parseFactor : Nat → List Tok → Option (PyExpr × List Tok)
  | 0, _ => none
  | fuel + 1, toks =>
    match toks with
    | .plus :: t =>
      match parseFactor fuel t with
      | some (e, rest) => some (.unaryOp .uadd e, rest)
      | none => none
    | .minus :: t =>
      match parseFactor fuel t with
      | some (e, rest) => some (.unaryOp .usub e, rest)
      | none => none
    | .tilde :: t =>
      match parseFactor fuel t with
      | some (e, rest) => some (.unaryOp .invert e, rest)
      | none => none
    | _ => parsePower fuel toks

/-- Parse a `power`. -/
def parsePower : Nat → List Tok → Option (PyExpr × List Tok)
  | 0, _ => none
  | fuel + 1, toks =>
    match parsePrimary fuel toks with
    | some (e, rest) =>
      match rest with
      | .dstar :: t =>
        match parseFactor fuel t with
        | some (e2, rest2) => some (.binOp .pow e e2, rest2)
        | none => none
      | _ => some (e, rest)
    | none => none

/-- Parse an atom followed by call suffixes. -/
def parsePrimary : Nat → List Tok → Option (PyExpr × List Tok)
  | 0, _ => none
  | fuel + 1, toks =>
    match parseAtom fuel toks with
    | some (e, rest) => parsePrimaryRest fuel e rest
    | none => none

/-- Call-suffix continuation. -/
def parsePrimaryRest : Nat → PyExpr → List Tok → Option (PyExpr × List Tok)
  | 0, _, _ => none
  | fuel + 1, acc, toks =>
    match toks with
    | .lparen :: t =>
      match parseArgs fuel t with
      | some (args, rest) => parsePrimaryRest fuel (.call acc args) rest
      | none => none
    | _ => some (acc, toks)

/-- Parse a call's argument list, the opening parenthesis already
consumed; consumes the closing parenthesis. -/
def parseArgs : Nat → List Tok → Option (List PyExpr × List Tok)
  | 0, _ => none
  | fuel + 1, toks =>
    match toks with
    | .rparen :: t => some ([], t)
    | _ =>
      match parseSum fuel toks with
      | some (e, rest) => parseArgsRest fuel [e] rest
      | none => none

/-- Further comma-separated arguments. -/
def parseArgsRest : Nat → List PyExpr → List Tok → Option (List PyExpr × List Tok)
  | 0, _, _ => none
  | fuel + 1, acc, toks =>
    match toks with
    | .comma :: t =>
      match parseSum fuel t with
      | some (e, rest) => parseArgsRest fuel (acc ++ [e]) rest
      | none => none
    | .rparen :: t => some (acc, t)
    | _ => none

/-- Parse an `atom`. -/
def parseAtom : Nat → List Tok → Option (PyExpr × List Tok)
  | 0, _ => none
  | fuel + 1, toks =>
    match toks with
    | .num c :: t => some (.const c, t)
    | .str s :: t => some (.const (.strC s), t)
    | .name s :: t =>
      if s = ("True") then some (.const (.boolC true), t)
      else if s = ("False") then some (.const (.boolC false), t)
      else if s = ("None") then some (.const .noneC, t)
      else some (.name s, t)
    | .lparen :: t =>
      match parseSum fuel t with
      | some (e, rest) =>
        match rest with
        | .rparen :: r2 => some (e, r2)
        | _ => none
      | none => none
    | _ => none

end

/-- Ample fuel for a token list: every level of the grammar consumes a
token before re-entering itself. -/
def parseFuel (toks : List Tok) : Nat := 8 * toks.length + 8

/-- Model of `ast.parse(expr, mode="eval")`: tokenize, parse one expression, and
require the whole input to be consumed; `none` plays the role of
`SyntaxError`. -/
def pyParse (s : String) : Option PyExpr :=
  match tokenize s with
  | none => none
  | some toks =>
    match parseSum (parseFuel toks) toks with
    | some (e, []) => some e
    | _ => none

/-- The source's `SafeEvaluator.eval`: parse then walk the tree; `ZeroDivisionError`
is re-raised with its fixed message, every other failure (including
`SyntaxError` from parsing) becomes `ValueError("Invalid expression")`. -/
def SafeEvaluator.eval (fracPow : ℚ → ℚ → Except EvalErr PyNum)
    (expr : String) : Except CalcErr PyNum :=
  match pyParse expr with
  | none => .error .invalidExpression
  | some node =>
    match SafeEvaluator._eval_node fracPow node with
    | .ok v => .ok v
    | .error .zeroDiv => .error .divisionByZero
    | .error .other => .error .invalidExpression

/-- Default instantiation of the abstract fractional-power outcome, used
only to state closed theorems whose inputs never reach a fractional
exponent; theorems about non-concrete inputs quantify over `fracPow`. -/
def fracPowDefault : ℚ → ℚ → Except EvalErr PyNum := fun _ _ => .error .other

/-! ## Decimal rendering of integers

Model of Python's `str` on `int` (used by f-strings and by the UI when it
writes a result back to the display), together with round-trip lemmas
showing the tokenizer lexes a rendered integer back to the same value. -/

/-- The character of a decimal digit. -/
def digitChar : Nat → Char
  | 0 => '0'
  | 1 => '1'
  | 2 => '2'
  | 3 => '3'
  | 4 => '4'
  | 5 => '5'
  | 6 => '6'
  | 7 => '7'
  | 8 => '8'
  | _ => '9'

/-- Decimal digit characters of a natural number, most significant
first. -/
def digitsOfNat (n : Nat) : List Char :=
  if n < 10 then [digitChar n]
  else digitsOfNat (n / 10) ++ [digitChar (n % 10)]
termination_by n
decreasing_by
  exact Nat.div_lt_self (by omega) (by omega)

/-- Python's `str` on `int`: optional minus sign then decimal digits. -/
def pyIntRepr (a : Int) : String :=
  if a < 0 then ("-") ++ String.mk (digitsOfNat a.natAbs)
  else String.mk (digitsOfNat a.natAbs)

theorem digitChar_isDigit {d : Nat} (h : d < 10) : (digitChar d).isDigit = true := by
  interval_cases d <;> decide

theorem digitChar_not_identChar {d : Nat} (h : d < 10) :
    isIdentChar (digitChar d) = true := by
  interval_cases d <;> decide

theorem digitVal_digitChar {d : Nat} (h : d < 10) : digitVal (digitChar d) = d := by
  interval_cases d <;> decide

theorem digitsOfNat_ne_nil (n : Nat) : digitsOfNat n ≠ [] := by
  rw [digitsOfNat]
  split
  · simp
  · simp

theorem digitsOfNat_isDigit (n : Nat) : ∀ c ∈ digitsOfNat n, c.isDigit = true := by
  induction n using Nat.strong_induction_on with
  | _ n ih =>
    rw [digitsOfNat]
    split
    · next h =>
      intro c hc
      simp only [List.mem_singleton] at hc
      subst hc
      exact digitChar_isDigit h
    · next h =>
      intro c hc
      rcases List.mem_append.mp hc with h1 | h1
      · exact ih (n / 10) (Nat.div_lt_self (by omega) (by omega)) c h1
      · simp only [List.mem_singleton] at h1
        subst h1
        exact digitChar_isDigit (Nat.mod_lt _ (by omega))

theorem natFromDigits_aux_digitsOfNat (n : Nat) : ∀ acc : Nat,
    (digitsOfNat n).foldl (fun acc c => acc * 10 + digitVal c) acc =
      acc * 10 ^ (digitsOfNat n).length + n := by
  induction n using Nat.strong_induction_on with
  | _ n ih =>
    intro acc
    rw [digitsOfNat]
    split
    · next h =>
      simp [List.foldl, digitVal_digitChar h]
    · next h =>
      rw [List.foldl_append, ih (n / 10) (Nat.div_lt_self (by omega) (by omega)) acc]
      simp only [List.foldl, List.length_append, List.length_singleton]
      rw [digitVal_digitChar (Nat.mod_lt _ (by omega))]
      rw [pow_succ]
      have := Nat.div_add_mod n 10
      ring_nf
      omega

theorem natFromDigits_digitsOfNat (n : Nat) : natFromDigits (digitsOfNat n) = n := by
  have := natFromDigits_aux_digitsOfNat n 0
  simpa [natFromDigits] using this

theorem takeIdent_len (cs : List Char) : (takeIdent cs).2.length ≤ cs.length := by
  induction cs with
  | nil => simp [takeIdent]
  | cons c cs ih =>
    rw [takeIdent]
    split
    · simpa using Nat.le_succ_of_le ih
    · simp

theorem takeStr_len (q : Char) : ∀ cs s r, takeStr q cs = some (s, r) →
    r.length ≤ cs.length := by
  intro cs
  induction cs with
  | nil => intro s r h; simp [takeStr] at h
  | cons c cs ih =>
    intro s r h
    rw [takeStr] at h
    split at h
    · simp only [Option.some.injEq, Prod.mk.injEq] at h
      rw [← h.2]
      simp
    · cases hrec : takeStr q cs with
      | none => rw [hrec] at h; simp at h
      | some p =>
        rw [hrec] at h
        simp only [Option.some.injEq, Prod.mk.injEq] at h
        rw [← h.2]
        exact Nat.le_succ_of_le (ih p.1 p.2 (by rw [hrec]))

theorem takeUDigitsRest_cons (isD : Char → Bool) (c : Char) (cs : List Char) :
    takeUDigitsRest isD (c :: cs) =
      (if isD c then
        let p := takeUDigitsRest isD cs
        (c :: p.1, p.2)
      else if c = '_' then
        match cs with
        | d :: _ =>
          if isD d then takeUDigitsRest isD cs
          else ([], c :: cs)
        | [] => ([], [c])
      else ([], c :: cs)) := rfl

theorem takeUDigitsRest_len (isD : Char → Bool) : ∀ (n : Nat) (cs : List Char),
    cs.length ≤ n → (takeUDigitsRest isD cs).2.length ≤ cs.length := by
  intro n
  induction n with
  | zero =>
    intro cs h
    have hnil : cs = [] := List.eq_nil_of_length_eq_zero (Nat.le_zero.mp h)
    subst hnil
    simp [takeUDigitsRest]
  | succ n ih =>
    intro cs h
    cases cs with
    | nil => simp [takeUDigitsRest]
    | cons c cs =>
      rw [takeUDigitsRest_cons]
      split
      · simp only []
        exact le_trans (ih cs (by simp at h; omega)) (by simp)
      · split
        · cases cs with
          | nil => simp
          | cons d cs2 =>
            simp only []
            split
            · exact le_trans (ih (d :: cs2) (by simp at h ⊢; omega)) (by simp)
            · simp
        · simp

theorem takeUDigits_len (isD : Char → Bool) (cs : List Char) :
    (takeUDigits isD cs).2.length ≤ cs.length := by
  cases cs with
  | nil => simp [takeUDigits]
  | cons c cs =>
    rw [takeUDigits]
    split
    · simp only []
      exact le_trans (takeUDigitsRest_len isD cs.length cs le_rfl) (by simp)
    · simp

theorem lexExpDigits_len {sgn : Int} {cs : List Char} {ex : Option Int}
    {r : List Char} (h : lexExpDigits sgn cs = some (ex, r)) :
    r.length ≤ cs.length := by
  rw [lexExpDigits] at h
  split at h
  · simp at h
  · simp only [Option.some.injEq, Prod.mk.injEq] at h
    rw [← h.2]
    exact takeUDigits_len _ cs

theorem lexExponent_len : ∀ cs ex r, lexExponent cs = some (ex, r) →
    r.length ≤ cs.length := by
  intro cs ex r h
  match cs with
  | [] =>
    simp only [lexExponent, Option.some.injEq, Prod.mk.injEq] at h
    simp [← h.2]
  | c :: cs =>
    rw [show lexExponent (c :: cs) =
        (if c = 'e' || c = 'E' then
          match cs with
          | [] => lexExpDigits 1 []
          | c2 :: u =>
            if c2 = '+' then lexExpDigits 1 u
            else if c2 = '-' then lexExpDigits (-1) u
            else lexExpDigits 1 (c2 :: u)
        else some (none, c :: cs)) from rfl] at h
    split at h
    · cases cs with
      | nil => exact le_trans (lexExpDigits_len h) (by simp)
      | cons c2 u =>
        simp only [] at h
        split at h
        · exact le_trans (lexExpDigits_len h) (by simp; omega)
        · split at h
          · exact le_trans (lexExpDigits_len h) (by simp; omega)
          · exact le_trans (lexExpDigits_len h) (by simp)
    · simp only [Option.some.injEq, Prod.mk.injEq] at h
      simp [← h.2]

theorem lexFrac_len (cs : List Char) : (lexFrac cs).2.2.length ≤ cs.length := by
  cases cs with
  | nil => simp [lexFrac]
  | cons c t =>
    rw [lexFrac]
    split
    · exact le_trans (takeUDigits_len _ _) (by simp)
    · simp

theorem lexRadixCore_len {isD : Char → Bool} {base : Nat} {u : List Char}
    {k : PyConst} {rest : List Char}
    (h : (if (takeUDigits isD u).1.isEmpty then none
      else if noIdentHead (takeUDigits isD u).2 then
        some (PyConst.intC (natFromBase base (takeUDigits isD u).1),
          (takeUDigits isD u).2)
      else none) = some (k, rest)) : rest.length ≤ u.length := by
  split at h
  · simp at h
  · split at h
    · simp only [Option.some.injEq, Prod.mk.injEq] at h
      rw [← h.2]
      exact takeUDigits_len _ _
    · simp at h

theorem lexRadix_len {isD : Char → Bool} {base : Nat} :
    ∀ {cs : List Char} {k : PyConst} {rest : List Char},
    lexRadix isD base cs = some (k, rest) → rest.length ≤ cs.length := by
  intro cs k rest h
  rw [show lexRadix isD base cs =
      (let p :=
        match cs with
        | c :: t => if c = '_' then takeUDigits isD t else takeUDigits isD (c :: t)
        | [] => takeUDigits isD []
      if p.1.isEmpty then none
      else if noIdentHead p.2 then some (.intC (natFromBase base p.1), p.2)
      else none) from rfl] at h
  cases cs with
  | nil =>
    simp only [] at h
    exact lexRadixCore_len h
  | cons c t =>
    simp only [] at h
    split at h
    · exact le_trans (lexRadixCore_len h) (by simp)
    · exact lexRadixCore_len h

theorem startsNumber_dot {c : Char} {cs : List Char}
    (hs : startsNumber (c :: cs) = true) (hd : ¬ c.isDigit = true) : c = '.' := by
  unfold startsNumber at hs
  simp only [Bool.or_eq_true, Bool.and_eq_true, decide_eq_true_eq] at hs
  rcases hs with hs | hs
  · exact absurd hs hd
  · exact hs.1

theorem lexDecimal_len {c : Char} {cs : List Char} {k : PyConst} {rest : List Char}
    (hs : startsNumber (c :: cs) = true) (h : lexDecimal (c :: cs) = some (k, rest)) :
    rest.length ≤ cs.length := by
  have key : (lexFrac (takeUDigits Char.isDigit (c :: cs)).2).2.2.length ≤ cs.length := by
    by_cases hd : c.isDigit
    · have h1 : takeUDigits Char.isDigit (c :: cs) =
          (c :: (takeUDigitsRest Char.isDigit cs).1, (takeUDigitsRest Char.isDigit cs).2) := by
        rw [takeUDigits, if_pos hd]
      rw [h1]
      exact le_trans (lexFrac_len _) (takeUDigitsRest_len _ cs.length cs le_rfl)
    · have hc : c = '.' := startsNumber_dot hs hd
      have h1 : takeUDigits Char.isDigit (c :: cs) = ([], c :: cs) := by
        rw [takeUDigits, if_neg hd]
      rw [h1, hc, lexFrac, if_pos rfl]
      exact takeUDigits_len _ cs
  simp only [lexDecimal] at h
  split at h
  · simp at h
  · split at h
    · simp at h
    · rename_i ex3 r3 heq
      split at h
      · split at h
        · simp at h
        · simp only [Option.some.injEq, Prod.mk.injEq] at h
          rw [← h.2]
          exact le_trans (lexExponent_len _ _ _ heq) key
      · simp at h

theorem lexNumber_len {c : Char} {cs : List Char} {k : PyConst} {rest : List Char}
    (hs : startsNumber (c :: cs) = true) (h : lexNumber (c :: cs) = some (k, rest)) :
    rest.length ≤ cs.length := by
  cases cs with
  | nil =>
    rw [show lexNumber [c] = lexDecimal [c] from rfl] at h
    exact lexDecimal_len hs h
  | cons c2 t =>
    rw [show lexNumber (c :: c2 :: t) =
        (if c = '0' && (c2 = 'x' || c2 = 'X') then lexRadix isHexDig 16 t
        else if c = '0' && (c2 = 'b' || c2 = 'B') then lexRadix isBinDig 2 t
        else if c = '0' && (c2 = 'o' || c2 = 'O') then lexRadix isOctDig 8 t
        else lexDecimal (c :: c2 :: t)) from rfl] at h
    split at h
    · exact le_trans (lexRadix_len h) (by simp)
    · split at h
      · exact le_trans (lexRadix_len h) (by simp)
      · split at h
        · exact le_trans (lexRadix_len h) (by simp)
        · exact lexDecimal_len hs h

theorem tokenizeAux_zero (cs : List Char) : tokenizeAux 0 cs = none := by
  cases cs <;> rfl

theorem tokenizeAux_nil (fuel : Nat) : tokenizeAux (fuel + 1) [] = some [] := rfl

theorem tokenizeAux_cons (fuel : Nat) (c : Char) (cs : List Char) :
    tokenizeAux (fuel + 1) (c :: cs) =
      (if c = ' ' || c = '\t' then tokenizeAux fuel cs
      else if startsNumber (c :: cs) then
        match lexNumber (c :: cs) with
        | none => none
        | some (k, rest) => (tokenizeAux fuel rest).map (Tok.num k :: ·)
      else if isIdentStart c then
        let p := takeIdent cs
        (tokenizeAux fuel p.2).map (Tok.name (String.mk (c :: p.1)) :: ·)
      else if c = '\'' || c = '"' then
        match takeStr c cs with
        | none => none
        | some (s, rest) => (tokenizeAux fuel rest).map (Tok.str (String.mk s) :: ·)
      else if c = '*' then
        match cs with
        | c2 :: t =>
          if c2 = '*' then (tokenizeAux fuel t).map (Tok.dstar :: ·)
          else (tokenizeAux fuel (c2 :: t)).map (Tok.star :: ·)
        | [] => (tokenizeAux fuel []).map (Tok.star :: ·)
      else if c = '/' then
        match cs with
        | c2 :: t =>
          if c2 = '/' then (tokenizeAux fuel t).map (Tok.dslash :: ·)
          else (tokenizeAux fuel (c2 :: t)).map (Tok.slash :: ·)
        | [] => (tokenizeAux fuel []).map (Tok.slash :: ·)
      else if c = '+' then (tokenizeAux fuel cs).map (Tok.plus :: ·)
      else if c = '-' then (tokenizeAux fuel cs).map (Tok.minus :: ·)
      else if c = '%' then (tokenizeAux fuel cs).map (Tok.percent :: ·)
      else if c = '~' then (tokenizeAux fuel cs).map (Tok.tilde :: ·)
      else if c = '(' then (tokenizeAux fuel cs).map (Tok.lparen :: ·)
      else if c = ')' then (tokenizeAux fuel cs).map (Tok.rparen :: ·)
      else if c = ',' then (tokenizeAux fuel cs).map (Tok.comma :: ·)
      else none) := rfl

theorem tokenizeAux_stable : ∀ (n : Nat) (cs : List Char), cs.length ≤ n →
    ∀ f1 f2, cs.length < f1 → cs.length < f2 →
    tokenizeAux f1 cs = tokenizeAux f2 cs := by
  intro n
  induction n with
  | zero =>
    intro cs hlen f1 f2 h1 h2
    have hnil : cs = [] := List.eq_nil_of_length_eq_zero (Nat.le_zero.mp hlen)
    subst hnil
    match f1, h1 with
    | f1 + 1, _ =>
      match f2, h2 with
      | f2 + 1, _ => rfl
  | succ n ih =>
    intro cs hlen f1 f2 h1 h2
    match cs with
    | [] =>
      match f1, h1 with
      | f1 + 1, _ =>
        match f2, h2 with
        | f2 + 1, _ => rfl
    | c :: cs =>
      match f1, h1 with
      | m1 + 1, h1 =>
        match f2, h2 with
        | m2 + 1, h2 =>
          rw [tokenizeAux_cons, tokenizeAux_cons]
          have hcs : cs.length ≤ n := by
            simp only [List.length_cons] at hlen; omega
          have hm1 : cs.length < m1 := by
            simp only [List.length_cons] at h1; omega
          have hm2 : cs.length < m2 := by
            simp only [List.length_cons] at h2; omega
          by_cases hsp : (c = ' ' || c = '\t') = true
          · rw [if_pos hsp, if_pos hsp]
            exact ih cs hcs m1 m2 hm1 hm2
          · rw [if_neg hsp, if_neg hsp]
            by_cases hnum : startsNumber (c :: cs) = true
            · rw [if_pos hnum, if_pos hnum]
              cases hlex : lexNumber (c :: cs) with
              | none => rfl
              | some p =>
                obtain ⟨k, rest⟩ := p
                have hr : rest.length ≤ cs.length := lexNumber_len hnum hlex
                show (tokenizeAux m1 rest).map (Tok.num k :: ·) =
                  (tokenizeAux m2 rest).map (Tok.num k :: ·)
                rw [ih rest (le_trans hr hcs) m1 m2 (by omega) (by omega)]
            · rw [if_neg hnum, if_neg hnum]
              by_cases hid : isIdentStart c = true
              · rw [if_pos hid, if_pos hid]
                have hr := takeIdent_len cs
                show (tokenizeAux m1 (takeIdent cs).2).map
                    (Tok.name (String.mk (c :: (takeIdent cs).1)) :: ·) =
                  (tokenizeAux m2 (takeIdent cs).2).map
                    (Tok.name (String.mk (c :: (takeIdent cs).1)) :: ·)
                rw [ih (takeIdent cs).2 (le_trans hr hcs) m1 m2 (by omega) (by omega)]
              · rw [if_neg hid, if_neg hid]
                by_cases hq : (c = '\'' || c = '"') = true
                · rw [if_pos hq, if_pos hq]
                  cases hstr : takeStr c cs with
                  | none => rfl
                  | some p =>
                    obtain ⟨s, rest⟩ := p
                    have hr : rest.length ≤ cs.length := takeStr_len c cs s rest hstr
                    show (tokenizeAux m1 rest).map (Tok.str (String.mk s) :: ·) =
                      (tokenizeAux m2 rest).map (Tok.str (String.mk s) :: ·)
                    rw [ih rest (le_trans hr hcs) m1 m2 (by omega) (by omega)]
                · rw [if_neg hq, if_neg hq]
                  by_cases hstar : c = '*'
                  · rw [if_pos hstar, if_pos hstar]
                    cases cs with
                    | nil =>
                      simp only []
                      rw [ih [] (Nat.zero_le n) m1 m2 hm1 hm2]
                    | cons c2 t =>
                      simp only []
                      by_cases h2 : c2 = '*'
                      · rw [if_pos h2, if_pos h2]
                        rw [ih t (by simp at hcs; omega) m1 m2
                          (by simp at hm1; omega) (by simp at hm2; omega)]
                      · rw [if_neg h2, if_neg h2]
                        rw [ih (c2 :: t) hcs m1 m2 hm1 hm2]
                  · rw [if_neg hstar, if_neg hstar]
                    by_cases hsl : c = '/'
                    · rw [if_pos hsl, if_pos hsl]
                      cases cs with
                      | nil =>
                        simp only []
                        rw [ih [] (Nat.zero_le n) m1 m2 hm1 hm2]
                      | cons c2 t =>
                        simp only []
                        by_cases h2 : c2 = '/'
                        · rw [if_pos h2, if_pos h2]
                          rw [ih t (by simp at hcs; omega) m1 m2
                            (by simp at hm1; omega) (by simp at hm2; omega)]
                        · rw [if_neg h2, if_neg h2]
                          rw [ih (c2 :: t) hcs m1 m2 hm1 hm2]
                    · rw [if_neg hsl, if_neg hsl]
                      by_cases hx : c = '+'
                      · rw [if_pos hx, if_pos hx, ih cs hcs m1 m2 hm1 hm2]
                      · rw [if_neg hx, if_neg hx]
                        by_cases hx2 : c = '-'
                        · rw [if_pos hx2, if_pos hx2, ih cs hcs m1 m2 hm1 hm2]
                        · rw [if_neg hx2, if_neg hx2]
                          by_cases hx3 : c = '%'
                          · rw [if_pos hx3, if_pos hx3, ih cs hcs m1 m2 hm1 hm2]
                          · rw [if_neg hx3, if_neg hx3]
                            by_cases hx4 : c = '~'
                            · rw [if_pos hx4, if_pos hx4, ih cs hcs m1 m2 hm1 hm2]
                            · rw [if_neg hx4, if_neg hx4]
                              by_cases hx5 : c = '('
                              · rw [if_pos hx5, if_pos hx5, ih cs hcs m1 m2 hm1 hm2]
                              · rw [if_neg hx5, if_neg hx5]
                                by_cases hx6 : c = ')'
                                · rw [if_pos hx6, if_pos hx6, ih cs hcs m1 m2 hm1 hm2]
                                · rw [if_neg hx6, if_neg hx6]
                                  by_cases hx7 : c = ','
                                  · rw [if_pos hx7, if_pos hx7, ih cs hcs m1 m2 hm1 hm2]
                                  · rw [if_neg hx7, if_neg hx7]

theorem tokenizeAux_eq_tokenizeL {fuel : Nat} {cs : List Char}
    (h : cs.length < fuel) : tokenizeAux fuel cs = tokenizeL cs :=
  tokenizeAux_stable cs.length cs le_rfl fuel (cs.length + 1) h (Nat.lt_succ_self _)

/-! ### Lexing a rendered integer -/

/-- The inputs allowed to follow a numeral in the round-trip lemmas:
nothing, or a `/` or `%` operator. -/
def SepHead : List Char → Prop
  | [] => True
  | c :: _ => c = '/' ∨ c = '%'

theorem sepHead_facts {rest : List Char} (h : SepHead rest) :
    ∀ c, rest.head? = some c → Char.isDigit c = false ∧ ¬ c = '_' := by
  intro c hc
  cases rest with
  | nil => simp at hc
  | cons c2 t =>
    simp only [List.head?_cons, Option.some.injEq] at hc
    subst hc
    rcases h with h | h <;> subst h <;> exact ⟨by decide, by decide⟩

theorem takeUDigits_cons (isD : Char → Bool) (c : Char) (cs : List Char) :
    takeUDigits isD (c :: cs) =
      (if isD c then
        let p := takeUDigitsRest isD cs
        (c :: p.1, p.2)
      else ([], c :: cs)) := rfl

theorem takeUDigitsRest_append (isD : Char → Bool) :
    ∀ (ds rest : List Char), (∀ c ∈ ds, isD c = true) →
    (∀ c, rest.head? = some c → isD c = false ∧ ¬ c = '_') →
    takeUDigitsRest isD (ds ++ rest) = (ds, rest) := by
  intro ds
  induction ds with
  | nil =>
    intro rest hd hr
    cases rest with
    | nil => rfl
    | cons c t =>
      obtain ⟨h1, h2⟩ := hr c rfl
      rw [List.nil_append, takeUDigitsRest_cons, if_neg (by simp [h1]), if_neg h2]
  | cons c cs ih =>
    intro rest hd hr
    rw [List.cons_append, takeUDigitsRest_cons, if_pos (hd c (by simp))]
    simp only [ih rest (fun x hx => hd x (by simp [hx])) hr]

theorem takeUDigits_append (isD : Char → Bool) (ds rest : List Char)
    (hd : ∀ c ∈ ds, isD c = true)
    (hr : ∀ c, rest.head? = some c → isD c = false ∧ ¬ c = '_') :
    takeUDigits isD (ds ++ rest) = (ds, rest) := by
  cases ds with
  | nil =>
    cases rest with
    | nil => rfl
    | cons c t =>
      obtain ⟨h1, h2⟩ := hr c rfl
      rw [List.nil_append, takeUDigits_cons, if_neg (by simp [h1])]
  | cons c cs =>
    rw [List.cons_append, takeUDigits_cons, if_pos (hd c (by simp))]
    simp only [takeUDigitsRest_append isD cs rest (fun x hx => hd x (by simp [hx])) hr]

theorem lexNumber_eq_lexDecimal : ∀ {cs : List Char},
    (∀ c2 t, cs = '0' :: c2 :: t →
      ¬ (c2 = 'x' ∨ c2 = 'X' ∨ c2 = 'b' ∨ c2 = 'B' ∨ c2 = 'o' ∨ c2 = 'O')) →
    lexNumber cs = lexDecimal cs := by
  intro cs hno
  match cs with
  | [] => rfl
  | [c] => rfl
  | c1 :: c2 :: t =>
    rw [show lexNumber (c1 :: c2 :: t) =
      (if c1 = '0' && (c2 = 'x' || c2 = 'X') then lexRadix isHexDig 16 t
      else if c1 = '0' && (c2 = 'b' || c2 = 'B') then lexRadix isBinDig 2 t
      else if c1 = '0' && (c2 = 'o' || c2 = 'O') then lexRadix isOctDig 8 t
      else lexDecimal (c1 :: c2 :: t)) from rfl]
    by_cases h0 : c1 = '0'
    · subst h0
      have hn := hno c2 t rfl
      push_neg at hn
      obtain ⟨hx, hX, hb, hB, ho, hO⟩ := hn
      rw [if_neg (by simp [hx, hX]), if_neg (by simp [hb, hB]),
        if_neg (by simp [ho, hO])]
    · rw [if_neg (by simp [h0]), if_neg (by simp [h0]), if_neg (by simp [h0])]

theorem digitsOfNat_zero_head : ∀ n : Nat,
    (digitsOfNat n).head? = some '0' → digitsOfNat n = ['0'] := by
  intro n
  induction n using Nat.strong_induction_on with
  | _ n ih =>
    intro h
    by_cases hlt : n < 10
    · rw [digitsOfNat, if_pos hlt] at h ⊢
      simp only [List.head?_cons, Option.some.injEq] at h
      have hn0 : n = 0 := by
        interval_cases n <;> first | rfl | exact absurd h (by decide)
      subst hn0
      rfl
    · rw [digitsOfNat, if_neg hlt] at h
      obtain ⟨d, ds, hds⟩ : ∃ d ds, digitsOfNat (n / 10) = d :: ds := by
        cases hh : digitsOfNat (n / 10) with
        | nil => exact absurd hh (digitsOfNat_ne_nil _)
        | cons d ds => exact ⟨d, ds, rfl⟩
      rw [hds] at h
      simp only [List.cons_append, List.head?_cons, Option.some.injEq] at h
      have h2 : digitsOfNat (n / 10) = ['0'] :=
        ih (n / 10) (Nat.div_lt_self (by omega) (by omega)) (by rw [hds, h]; rfl)
      have h3 := natFromDigits_digitsOfNat (n / 10)
      rw [h2, show natFromDigits ['0'] = 0 from rfl] at h3
      omega

theorem validDecInt_digitsOfNat (n : Nat) : validDecInt (digitsOfNat n) = true := by
  cases hdig : digitsOfNat n with
  | nil => rfl
  | cons c rest =>
    show (if c = '0' then rest.all (fun d => d = '0') else true) = true
    by_cases hc : c = '0'
    · subst hc
      have h2 : digitsOfNat n = ['0'] := digitsOfNat_zero_head n (by rw [hdig]; rfl)
      rw [hdig] at h2
      simp only [List.cons.injEq] at h2
      rw [if_pos rfl, h2.2]
      rfl
    · rw [if_neg hc]

theorem lexNumber_digits (n : Nat) (rest : List Char) (h : SepHead rest) :
    lexNumber (digitsOfNat n ++ rest) = some (.intC n, rest) := by
  obtain ⟨d0, ds0, hds0⟩ : ∃ d ds, digitsOfNat n = d :: ds := by
    cases hh : digitsOfNat n with
    | nil => exact absurd hh (digitsOfNat_ne_nil _)
    | cons d ds => exact ⟨d, ds, rfl⟩
  have heq : lexNumber (digitsOfNat n ++ rest) = lexDecimal (digitsOfNat n ++ rest) := by
    apply lexNumber_eq_lexDecimal
    intro c2 t hsplit
    have hhead : (digitsOfNat n).head? = some '0' := by
      rw [hds0] at hsplit ⊢
      simp only [List.cons_append, List.cons.injEq] at hsplit
      rw [hsplit.1]
      rfl
    have hdig0 : digitsOfNat n = ['0'] := digitsOfNat_zero_head n hhead
    rw [hdig0] at hsplit
    simp only [List.cons_append, List.nil_append, List.cons.injEq] at hsplit
    have hrest : rest = c2 :: t := hsplit.2
    rw [hrest] at h
    have h2 : c2 = '/' ∨ c2 = '%' := h
    rcases h2 with h2 | h2 <;> subst h2 <;> decide
  rw [heq]
  have htd : takeUDigits Char.isDigit (digitsOfNat n ++ rest) = (digitsOfNat n, rest) :=
    takeUDigits_append _ _ _ (digitsOfNat_isDigit n) (sepHead_facts h)
  have hfr : lexFrac rest = ([], false, rest) := by
    cases rest with
    | nil => rfl
    | cons c2 t =>
      rcases h with h | h <;> subst h <;> rfl
  have hex : lexExponent rest = some (none, rest) := by
    cases rest with
    | nil => rfl
    | cons c2 t =>
      rcases h with h | h <;> subst h <;> rfl
  have hni : noIdentHead rest = true := by
    cases rest with
    | nil => rfl
    | cons c2 t =>
      rcases h with h | h <;> subst h <;> rfl
  simp only [lexDecimal, htd, hfr, hex, hni, if_true]
  rw [if_neg (by simp [digitsOfNat_ne_nil n])]
  simp [mkNumber, natFromDigits_digitsOfNat, validDecInt_digitsOfNat]

theorem digitsOfNat_mem (n : Nat) : ∀ c ∈ digitsOfNat n,
    ∃ d, d < 10 ∧ c = digitChar d := by
  induction n using Nat.strong_induction_on with
  | _ n ih =>
    rw [digitsOfNat]
    split
    · next h =>
      intro c hc
      simp only [List.mem_singleton] at hc
      exact ⟨n, h, hc⟩
    · next h =>
      intro c hc
      rcases List.mem_append.mp hc with h1 | h1
      · exact ih _ (Nat.div_lt_self (by omega) (by omega)) c h1
      · simp only [List.mem_singleton] at h1
        exact ⟨n % 10, Nat.mod_lt _ (by omega), h1⟩

theorem digitChar_head_facts {d : Nat} (hd : d < 10) :
    (¬ (digitChar d = ' ' ∨ digitChar d = '\t')) ∧
      isIdentStart (digitChar d) = false ∧
      ¬ (digitChar d = '\'' ∨ digitChar d = '"') := by
  interval_cases d <;> exact ⟨by decide, by decide, by decide⟩

theorem tokenizeL_num (n : Nat) (rest : List Char) (h : SepHead rest) :
    tokenizeL (digitsOfNat n ++ rest) =
      (tokenizeL rest).map (Tok.num (.intC n) :: ·) := by
  obtain ⟨d, ds, hds⟩ : ∃ d ds, digitsOfNat n = d :: ds := by
    cases hh : digitsOfNat n with
    | nil => exact absurd hh (digitsOfNat_ne_nil n)
    | cons d ds => exact ⟨d, ds, rfl⟩
  have hd : d.isDigit = true := digitsOfNat_isDigit n d (by rw [hds]; simp)
  obtain ⟨dv, hdv, hdev⟩ := digitsOfNat_mem n d (by rw [hds]; simp)
  have hfacts := digitChar_head_facts hdv
  rw [← hdev] at hfacts
  rw [hds, List.cons_append, tokenizeL]
  rw [show (d :: (ds ++ rest)).length + 1 = ((ds ++ rest).length + 1) + 1 from by simp]
  rw [tokenizeAux_cons]
  rw [if_neg (by
    simp only [Bool.or_eq_true, decide_eq_true_eq]
    exact hfacts.1)]
  rw [if_pos (by
    unfold startsNumber
    simp [hd])]
  have hlex : lexNumber (d :: (ds ++ rest)) = some (.intC n, rest) := by
    rw [← List.cons_append, ← hds]
    exact lexNumber_digits n rest h
  rw [hlex]
  show (tokenizeAux ((ds ++ rest).length + 1) rest).map (Tok.num (.intC n) :: ·) = _
  rw [tokenizeAux_eq_tokenizeL (by simp; omega)]

theorem startsNumber_op {c : Char} (h1 : c.isDigit = false) (h2 : ¬ c = '.')
    (rest : List Char) : startsNumber (c :: rest) = false := by
  show (c.isDigit ||
      (decide (c = '.') &&
        (match rest with
        | d :: _ => d.isDigit
        | [] => false))) = false
  rw [h1, show decide (c = '.') = false from by simp [h2]]
  simp

theorem tokenizeL_minus (rest : List Char) :
    tokenizeL ('-' :: rest) = (tokenizeL rest).map (Tok.minus :: ·) := by
  rw [tokenizeL, show ('-' :: rest).length + 1 = (rest.length + 1) + 1 from by simp]
  rw [tokenizeAux_cons]
  rw [if_neg (by decide)]
  rw [if_neg (by rw [startsNumber_op (by decide) (by decide)]; exact Bool.false_ne_true)]
  rw [if_neg (by decide), if_neg (by decide), if_neg (by decide), if_neg (by decide),
    if_neg (by decide), if_pos (by decide)]
  rfl

theorem tokenizeL_percent (rest : List Char) :
    tokenizeL ('%' :: rest) = (tokenizeL rest).map (Tok.percent :: ·) := by
  rw [tokenizeL, show ('%' :: rest).length + 1 = (rest.length + 1) + 1 from by simp]
  rw [tokenizeAux_cons]
  rw [if_neg (by decide)]
  rw [if_neg (by rw [startsNumber_op (by decide) (by decide)]; exact Bool.false_ne_true)]
  rw [if_neg (by decide), if_neg (by decide), if_neg (by decide), if_neg (by decide),
    if_neg (by decide), if_neg (by decide), if_pos (by decide)]
  rfl

theorem tokenizeL_slash (c2 : Char) (t : List Char) (h : ¬ c2 = '/') :
    tokenizeL ('/' :: c2 :: t) = (tokenizeL (c2 :: t)).map (Tok.slash :: ·) := by
  rw [tokenizeL, show ('/' :: c2 :: t).length + 1 = ((c2 :: t).length + 1) + 1 from by simp]
  rw [tokenizeAux_cons]
  rw [if_neg (by decide)]
  rw [if_neg (by rw [startsNumber_op (by decide) (by decide)]; exact Bool.false_ne_true)]
  rw [if_neg (by decide), if_neg (by decide), if_neg (by decide), if_pos (by decide)]
  simp only []
  rw [if_neg (by simpa using h)]
  rfl

/-- Character form of `pyIntRepr`. -/
def charsOfInt (a : Int) : List Char :=
  if a < 0 then '-' :: digitsOfNat a.natAbs else digitsOfNat a.natAbs

/-- Tokens a rendered integer lexes to. -/
def toksOfInt (a : Int) : List Tok :=
  if a < 0 then [.minus, .num (.intC a.natAbs)] else [.num (.intC a.natAbs)]

/-- Syntax tree a rendered integer parses to (a negative integer is a
unary minus applied to the magnitude literal). -/
def astOfInt (a : Int) : PyExpr :=
  if a < 0 then .unaryOp .usub (.const (.intC a.natAbs))
  else .const (.intC a.natAbs)

theorem pyIntRepr_data (a : Int) : (pyIntRepr a).data = charsOfInt a := by
  unfold pyIntRepr charsOfInt
  split
  · rw [String.data_append]
    rfl
  · rfl

theorem digitChar_ne_slash {d : Nat} (hd : d < 10) : ¬ digitChar d = '/' := by
  interval_cases d <;> decide

theorem tokenizeL_int (a : Int) (rest : List Char) (h : SepHead rest) :
    tokenizeL (charsOfInt a ++ rest) =
      (tokenizeL rest).map (fun ts => toksOfInt a ++ ts) := by
  unfold charsOfInt toksOfInt
  split
  · rw [List.cons_append, tokenizeL_minus, tokenizeL_num _ _ h]
    cases tokenizeL rest <;> rfl
  · rw [tokenizeL_num _ _ h]
    cases tokenizeL rest <;> rfl

theorem tokenizeL_nil_eq : tokenizeL [] = some [] := rfl

theorem tokenizeL_charsOfInt (b : Int) : tokenizeL (charsOfInt b) = some (toksOfInt b) := by
  have h := tokenizeL_int b [] trivial
  rw [List.append_nil] at h
  rw [h, tokenizeL_nil_eq]
  simp

theorem tokenizeL_op_int (b : Int) (c : Char) (opTok : Tok)
    (hc : (c = '/' ∧ opTok = Tok.slash) ∨ (c = '%' ∧ opTok = Tok.percent)) :
    tokenizeL (c :: charsOfInt b) = some (opTok :: toksOfInt b) := by
  have hb := tokenizeL_charsOfInt b
  rcases hc with ⟨hc, ho⟩ | ⟨hc, ho⟩ <;> subst hc <;> subst ho
  · by_cases hb0 : b < 0
    · have hl : charsOfInt b = '-' :: digitsOfNat b.natAbs := by
        unfold charsOfInt
        rw [if_pos hb0]
      rw [hl] at hb ⊢
      rw [tokenizeL_slash _ _ (by decide), hb]
      rfl
    · have hl : charsOfInt b = digitsOfNat b.natAbs := by
        unfold charsOfInt
        rw [if_neg hb0]
      obtain ⟨d, ds, hds⟩ : ∃ d ds, digitsOfNat b.natAbs = d :: ds := by
        cases hh : digitsOfNat b.natAbs with
        | nil => exact absurd hh (digitsOfNat_ne_nil _)
        | cons d ds => exact ⟨d, ds, rfl⟩
      obtain ⟨dv, hdv, hdev⟩ := digitsOfNat_mem b.natAbs d (by rw [hds]; simp)
      rw [hl, hds] at hb ⊢
      rw [tokenizeL_slash d ds (by rw [hdev]; exact digitChar_ne_slash hdv), hb]
      rfl
  · rw [tokenizeL_percent, hb]
    rfl

theorem tokenize_int_op_int (a b : Int) (c : Char) (opTok : Tok)
    (hc : (c = '/' ∧ opTok = Tok.slash) ∨ (c = '%' ∧ opTok = Tok.percent)) :
    tokenize (pyIntRepr a ++ String.mk [c] ++ pyIntRepr b) =
      some (toksOfInt a ++ opTok :: toksOfInt b) := by
  unfold tokenize
  have hdata : (pyIntRepr a ++ String.mk [c] ++ pyIntRepr b).data =
      charsOfInt a ++ c :: charsOfInt b := by
    rw [String.data_append, String.data_append, pyIntRepr_data, pyIntRepr_data]
    simp
  rw [hdata,
    tokenizeL_int a _ (by
      rcases hc with ⟨hc, _⟩ | ⟨hc, _⟩ <;> subst hc
      · exact Or.inl rfl
      · exact Or.inr rfl),
    tokenizeL_op_int b c opTok hc]
  rfl

/-! ### Parsing and evaluating a rendered `a op b` -/

theorem parseSum_pp (f : Nat) (n m : Int) :
    parseSum (f + 8) [.num (.intC n), .slash, .num (.intC m)] =
      some (.binOp .div (.const (.intC n)) (.const (.intC m)), []) := rfl

theorem parseSum_shapes (f : Nat) (n m : Int) (opTok : Tok) (opK : BinOpKind)
    (hc : (opTok = Tok.slash ∧ opK = .div) ∨ (opTok = Tok.percent ∧ opK = .mod)) :
    (parseSum (f + 8) ([.num (.intC n)] ++ opTok :: [.num (.intC m)]) =
      some (.binOp opK (.const (.intC n)) (.const (.intC m)), [])) ∧
    (parseSum (f + 8) ([.minus, .num (.intC n)] ++ opTok :: [.num (.intC m)]) =
      some (.binOp opK (.unaryOp .usub (.const (.intC n))) (.const (.intC m)), [])) ∧
    (parseSum (f + 8) ([.num (.intC n)] ++ opTok :: [.minus, .num (.intC m)]) =
      some (.binOp opK (.const (.intC n)) (.unaryOp .usub (.const (.intC m))), [])) ∧
    (parseSum (f + 8) ([.minus, .num (.intC n)] ++ opTok :: [.minus, .num (.intC m)]) =
      some (.binOp opK (.unaryOp .usub (.const (.intC n)))
        (.unaryOp .usub (.const (.intC m))), [])) := by
  rcases hc with ⟨h1, h2⟩ | ⟨h1, h2⟩ <;> subst h1 <;> subst h2 <;>
    exact ⟨rfl, rfl, rfl, rfl⟩

theorem pyParse_int_op_int (a b : Int) (c : Char) (opTok : Tok) (opK : BinOpKind)
    (hc : (c = '/' ∧ opTok = Tok.slash ∧ opK = .div) ∨
      (c = '%' ∧ opTok = Tok.percent ∧ opK = .mod)) :
    pyParse (pyIntRepr a ++ String.mk [c] ++ pyIntRepr b) =
      some (.binOp opK (astOfInt a) (astOfInt b)) := by
  have hc2 : (opTok = Tok.slash ∧ opK = .div) ∨ (opTok = Tok.percent ∧ opK = .mod) := by
    rcases hc with ⟨_, h1, h2⟩ | ⟨_, h1, h2⟩
    · exact Or.inl ⟨h1, h2⟩
    · exact Or.inr ⟨h1, h2⟩
  unfold pyParse
  rw [tokenize_int_op_int a b c opTok (by
    rcases hc with ⟨h1, h2, _⟩ | ⟨h1, h2, _⟩
    · exact Or.inl ⟨h1, h2⟩
    · exact Or.inr ⟨h1, h2⟩)]
  unfold toksOfInt astOfInt
  by_cases ha : a < 0 <;> by_cases hb : b < 0 <;>
    simp only [if_pos, if_neg, ha, hb, ite_true, ite_false]
  · rw [show parseFuel ([Tok.minus, Tok.num (.intC a.natAbs)] ++ opTok ::
        [Tok.minus, Tok.num (.intC b.natAbs)]) = 40 + 8 from by simp [parseFuel]]
    rw [(parseSum_shapes 40 a.natAbs b.natAbs opTok opK hc2).2.2.2]
  · rw [show parseFuel ([Tok.minus, Tok.num (.intC a.natAbs)] ++ opTok ::
        [Tok.num (.intC b.natAbs)]) = 32 + 8 from by simp [parseFuel]]
    rw [(parseSum_shapes 32 a.natAbs b.natAbs opTok opK hc2).2.1]
  · rw [show parseFuel ([Tok.num (.intC a.natAbs)] ++ opTok ::
        [Tok.minus, Tok.num (.intC b.natAbs)]) = 32 + 8 from by simp [parseFuel]]
    rw [(parseSum_shapes 32 a.natAbs b.natAbs opTok opK hc2).2.2.1]
  · rw [show parseFuel ([Tok.num (.intC a.natAbs)] ++ opTok ::
        [Tok.num (.intC b.natAbs)]) = 24 + 8 from by simp [parseFuel]]
    rw [(parseSum_shapes 24 a.natAbs b.natAbs opTok opK hc2).1]

theorem _eval_node_astOfInt (fracPow : ℚ → ℚ → Except EvalErr PyNum) (a : Int) :
    SafeEvaluator._eval_node fracPow (astOfInt a) = .ok (.int a) := by
  unfold astOfInt
  split
  · next ha =>
    show SafeEvaluator._eval_node fracPow
      (.unaryOp .usub (.const (.intC a.natAbs))) = .ok (.int a)
    simp only [SafeEvaluator._eval_node, SafeEvaluator._unary_ops, PyConst.isNum,
      PyConst.val, if_true, bind, Except.bind, pyNeg, pure, Except.pure]
    rw [show -(a.natAbs : Int) = a from by omega]
  · next ha =>
    show SafeEvaluator._eval_node fracPow (.const (.intC a.natAbs)) = .ok (.int a)
    simp only [SafeEvaluator._eval_node, PyConst.isNum, PyConst.val, if_true]
    rw [show (a.natAbs : Int) = a from by omega]

theorem eval_int_div (fracPow : ℚ → ℚ → Except EvalErr PyNum) (a b : Int) :
    SafeEvaluator.eval fracPow (pyIntRepr a ++ String.mk ['/'] ++ pyIntRepr b) =
      if b = 0 then .error .divisionByZero
      else .ok (.float ((a : ℚ) / (b : ℚ))) := by
  unfold SafeEvaluator.eval
  rw [pyParse_int_op_int a b '/' Tok.slash .div (Or.inl ⟨rfl, rfl, rfl⟩)]
  simp only [SafeEvaluator._eval_node, SafeEvaluator._bin_ops,
    _eval_node_astOfInt, bind, Except.bind, pyDiv, PyNum.toQ]
  by_cases hb : b = 0
  · subst hb
    rw [if_pos (by norm_num)]
    rfl
  · rw [if_neg (by simpa using hb)]
    rw [if_neg hb]

theorem eval_int_mod (fracPow : ℚ → ℚ → Except EvalErr PyNum) (a b : Int) :
    SafeEvaluator.eval fracPow (pyIntRepr a ++ String.mk ['%'] ++ pyIntRepr b) =
      if b = 0 then .error .divisionByZero
      else .ok (.int (Int.fmod a b)) := by
  unfold SafeEvaluator.eval
  rw [pyParse_int_op_int a b '%' Tok.percent .mod (Or.inr ⟨rfl, rfl, rfl⟩)]
  simp only [SafeEvaluator._eval_node, SafeEvaluator._bin_ops,
    _eval_node_astOfInt, bind, Except.bind, pyMod, PyNum.toQ, PyNum.intLike]
  by_cases hb : b = 0
  · subst hb
    rw [if_pos (by norm_num)]
    rfl
  · rw [if_neg (by simpa using hb)]
    rw [if_neg hb]

/-! ### Parenthesis balance

Every successful parse consumes a prefix with equally many `(` and `)`
tokens; since the entry point requires the whole token list to be
consumed, an input whose token counts differ can never parse. -/

/-- Number of left parentheses. -/
def cntL : List Tok → Nat
  | [] => 0
  | t :: ts => (if t = Tok.lparen then 1 else 0) + cntL ts

/-- Number of right parentheses. -/
def cntR : List Tok → Nat
  | [] => 0
  | t :: ts => (if t = Tok.rparen then 1 else 0) + cntR ts

theorem cntL_append (l1 l2 : List Tok) : cntL (l1 ++ l2) = cntL l1 + cntL l2 := by
  induction l1 with
  | nil => simp [cntL]
  | cons t ts ih => simp [cntL, ih]; omega

theorem cntR_append (l1 l2 : List Tok) : cntR (l1 ++ l2) = cntR l1 + cntR l2 := by
  induction l1 with
  | nil => simp [cntR]
  | cons t ts ih => simp [cntR, ih]; omega

/-- The tokens consumed between `toks` and the leftover `rest` are
parenthesis-balanced. -/
def BalSplit (toks rest : List Tok) : Prop :=
  ∃ pre, toks = pre ++ rest ∧ cntL pre = cntR pre

/-- Consumed tokens containing one extra `)` (an argument list whose
opening parenthesis was consumed by the caller). -/
def ArgSplit (toks rest : List Tok) : Prop :=
  ∃ pre, toks = pre ++ rest ∧ cntL pre + 1 = cntR pre

theorem balSplit_refl (t : List Tok) : BalSplit t t := ⟨[], rfl, rfl⟩

theorem balSplit_trans {t m r : List Tok} (h1 : BalSplit t m) (h2 : BalSplit m r) :
    BalSplit t r := by
  obtain ⟨p1, he1, hc1⟩ := h1
  obtain ⟨p2, he2, hc2⟩ := h2
  exact ⟨p1 ++ p2, by rw [he1, he2, List.append_assoc],
    by rw [cntL_append, cntR_append]; omega⟩

theorem balSplit_cons_op {x : Tok} (hx1 : ¬ x = Tok.lparen) (hx2 : ¬ x = Tok.rparen)
    {t r : List Tok} (h : BalSplit t r) : BalSplit (x :: t) r := by
  obtain ⟨p, he, hc⟩ := h
  exact ⟨x :: p, by rw [he]; rfl,
    by simp [cntL, cntR, hx1, hx2]; omega⟩

theorem argSplit_cons_op {x : Tok} (hx1 : ¬ x = Tok.lparen) (hx2 : ¬ x = Tok.rparen)
    {t r : List Tok} (h : ArgSplit t r) : ArgSplit (x :: t) r := by
  obtain ⟨p, he, hc⟩ := h
  exact ⟨x :: p, by rw [he]; rfl,
    by simp [cntL, cntR, hx1, hx2]; omega⟩

theorem balSplit_parens {t r : List Tok} (h : BalSplit t (Tok.rparen :: r)) :
    BalSplit (Tok.lparen :: t) r := by
  obtain ⟨p, he, hc⟩ := h
  refine ⟨Tok.lparen :: (p ++ [Tok.rparen]), ?_, ?_⟩
  · rw [he]
    simp
  · simp [cntL, cntR, cntL_append, cntR_append]
    omega

theorem balSplit_call {t r : List Tok} (h : ArgSplit t r) :
    BalSplit (Tok.lparen :: t) r := by
  obtain ⟨p, he, hc⟩ := h
  refine ⟨Tok.lparen :: p, ?_, ?_⟩
  · rw [he]
    rfl
  · simp [cntL, cntR]
    omega

theorem argSplit_rparen (t : List Tok) : ArgSplit (Tok.rparen :: t) t :=
  ⟨[Tok.rparen], rfl, rfl⟩

theorem balSplit_argSplit_trans {t m r : List Tok} (h1 : BalSplit t m)
    (h2 : ArgSplit m r) : ArgSplit t r := by
  obtain ⟨p1, he1, hc1⟩ := h1
  obtain ⟨p2, he2, hc2⟩ := h2
  exact ⟨p1 ++ p2, by rw [he1, he2, List.append_assoc],
    by rw [cntL_append, cntR_append]; omega⟩

theorem parseSumRest_succ (fuel : Nat) (acc : PyExpr) (toks : List Tok) :
    parseSumRest (fuel + 1) acc toks =
      (match toks with
      | .plus :: t =>
        match parseTerm fuel t with
        | some (e, rest) => parseSumRest fuel (.binOp .add acc e) rest
        | none => none
      | .minus :: t =>
        match parseTerm fuel t with
        | some (e, rest) => parseSumRest fuel (.binOp .sub acc e) rest
        | none => none
      | _ => some (acc, toks)) := rfl

theorem parseTermRest_succ (fuel : Nat) (acc : PyExpr) (toks : List Tok) :
    parseTermRest (fuel + 1) acc toks =
      (match toks with
      | .star :: t =>
        match parseFactor fuel t with
        | some (e, rest) => parseTermRest fuel (.binOp .mult acc e) rest
        | none => none
      | .slash :: t =>
        match parseFactor fuel t with
        | some (e, rest) => parseTermRest fuel (.binOp .div acc e) rest
        | none => none
      | .percent :: t =>
        match parseFactor fuel t with
        | some (e, rest) => parseTermRest fuel (.binOp .mod acc e) rest
        | none => none
      | .dslash :: t =>
        match parseFactor fuel t with
        | some (e, rest) => parseTermRest fuel (.binOp .floorDiv acc e) rest
        | none => none
      | _ => some (acc, toks)) := rfl

theorem parseFactor_succ (fuel : Nat) (toks : List Tok) :
    parseFactor (fuel + 1) toks =
      (match toks with
      | .plus :: t =>
        match parseFactor fuel t with
        | some (e, rest) => some (.unaryOp .uadd e, rest)
        | none => none
      | .minus :: t =>
        match parseFactor fuel t with
        | some (e, rest) => some (.unaryOp .usub e, rest)
        | none => none
      | .tilde :: t =>
        match parseFactor fuel t with
        | some (e, rest) => some (.unaryOp .invert e, rest)
        | none => none
      | _ => parsePower fuel toks) := rfl

theorem parsePrimaryRest_succ (fuel : Nat) (acc : PyExpr) (toks : List Tok) :
    parsePrimaryRest (fuel + 1) acc toks =
      (match toks with
      | .lparen :: t =>
        match parseArgs fuel t with
        | some (args, rest) => parsePrimaryRest fuel (.call acc args) rest
        | none => none
      | _ => some (acc, toks)) := rfl

theorem parseArgs_succ (fuel : Nat) (toks : List Tok) :
    parseArgs (fuel + 1) toks =
      (match toks with
      | .rparen :: t => some ([], t)
      | _ =>
        match parseSum fuel toks with
        | some (e, rest) => parseArgsRest fuel [e] rest
        | none => none) := rfl

theorem parseArgsRest_succ (fuel : Nat) (acc : List PyExpr) (toks : List Tok) :
    parseArgsRest (fuel + 1) acc toks =
      (match toks with
      | .comma :: t =>
        match parseSum fuel t with
        | some (e, rest) => parseArgsRest fuel (acc ++ [e]) rest
        | none => none
      | .rparen :: t => some (acc, t)
      | _ => none) := rfl

theorem parseAtom_succ (fuel : Nat) (toks : List Tok) :
    parseAtom (fuel + 1) toks =
      (match toks with
      | .num c :: t => some (.const c, t)
      | .str s :: t => some (.const (.strC s), t)
      | .name s :: t =>
        if s = ("True") then some (.const (.boolC true), t)
        else if s = ("False") then some (.const (.boolC false), t)
        else if s = ("None") then some (.const .noneC, t)
        else some (.name s, t)
      | .lparen :: t =>
        match parseSum fuel t with
        | some (e, rest) =>
          match rest with
          | .rparen :: r2 => some (e, r2)
          | _ => none
        | none => none
      | _ => none) := rfl

theorem parse_balance : ∀ fuel : Nat,
    (∀ toks e rest, parseSum fuel toks = some (e, rest) → BalSplit toks rest) ∧
    (∀ acc toks e rest, parseSumRest fuel acc toks = some (e, rest) →
      BalSplit toks rest) ∧
    (∀ toks e rest, parseTerm fuel toks = some (e, rest) → BalSplit toks rest) ∧
    (∀ acc toks e rest, parseTermRest fuel acc toks = some (e, rest) →
      BalSplit toks rest) ∧
    (∀ toks e rest, parseFactor fuel toks = some (e, rest) → BalSplit toks rest) ∧
    (∀ toks e rest, parsePower fuel toks = some (e, rest) → BalSplit toks rest) ∧
    (∀ toks e rest, parsePrimary fuel toks = some (e, rest) → BalSplit toks rest) ∧
    (∀ acc toks e rest, parsePrimaryRest fuel acc toks = some (e, rest) →
      BalSplit toks rest) ∧
    (∀ toks as rest, parseArgs fuel toks = some (as, rest) → ArgSplit toks rest) ∧
    (∀ acc toks as rest, parseArgsRest fuel acc toks = some (as, rest) →
      ArgSplit toks rest) ∧
    (∀ toks e rest, parseAtom fuel toks = some (e, rest) → BalSplit toks rest) := by
  intro fuel
  induction fuel with
  | zero =>
    refine ⟨?_, ?_, ?_, ?_, ?_, ?_, ?_, ?_, ?_, ?_, ?_⟩
    · intro toks e rest h; simp [parseSum] at h
    · intro acc toks e rest h; simp [parseSumRest] at h
    · intro toks e rest h; simp [parseTerm] at h
    · intro acc toks e rest h; simp [parseTermRest] at h
    · intro toks e rest h; simp [parseFactor] at h
    · intro toks e rest h; simp [parsePower] at h
    · intro toks e rest h; simp [parsePrimary] at h
    · intro acc toks e rest h; simp [parsePrimaryRest] at h
    · intro toks as rest h; simp [parseArgs] at h
    · intro acc toks as rest h; simp [parseArgsRest] at h
    · intro toks e rest h; simp [parseAtom] at h
  | succ fuel ih =>
    obtain ⟨ihSum, ihSumR, ihTerm, ihTermR, ihFactor, ihPower, ihPrimary,
      ihPrimaryR, ihArgs, ihArgsR, ihAtom⟩ := ih
    refine ⟨?_, ?_, ?_, ?_, ?_, ?_, ?_, ?_, ?_, ?_, ?_⟩
    · intro toks e rest h
      rw [parseSum] at h
      split at h
      · rename_i e1 mid heq
        exact balSplit_trans (ihTerm _ _ _ heq) (ihSumR _ _ _ _ h)
      · exact absurd h (by simp)
    · intro acc toks e rest h
      rw [parseSumRest_succ] at h
      split at h
      · rename_i t
        split at h
        · rename_i e1 mid heq
          exact balSplit_cons_op (by simp) (by simp)
            (balSplit_trans (ihTerm _ _ _ heq) (ihSumR _ _ _ _ h))
        · exact absurd h (by simp)
      · rename_i t
        split at h
        · rename_i e1 mid heq
          exact balSplit_cons_op (by simp) (by simp)
            (balSplit_trans (ihTerm _ _ _ heq) (ihSumR _ _ _ _ h))
        · exact absurd h (by simp)
      · simp only [Option.some.injEq, Prod.mk.injEq] at h
        obtain ⟨h1, h2⟩ := h
        subst h2
        exact balSplit_refl _
    · intro toks e rest h
      rw [parseTerm] at h
      split at h
      · rename_i e1 mid heq
        exact balSplit_trans (ihFactor _ _ _ heq) (ihTermR _ _ _ _ h)
      · exact absurd h (by simp)
    · intro acc toks e rest h
      rw [parseTermRest_succ] at h
      split at h
      · rename_i t
        split at h
        · rename_i e1 mid heq
          exact balSplit_cons_op (by simp) (by simp)
            (balSplit_trans (ihFactor _ _ _ heq) (ihTermR _ _ _ _ h))
        · exact absurd h (by simp)
      · rename_i t
        split at h
        · rename_i e1 mid heq
          exact balSplit_cons_op (by simp) (by simp)
            (balSplit_trans (ihFactor _ _ _ heq) (ihTermR _ _ _ _ h))
        · exact absurd h (by simp)
      · rename_i t
        split at h
        · rename_i e1 mid heq
          exact balSplit_cons_op (by simp) (by simp)
            (balSplit_trans (ihFactor _ _ _ heq) (ihTermR _ _ _ _ h))
        · exact absurd h (by simp)
      · rename_i t
        split at h
        · rename_i e1 mid heq
          exact balSplit_cons_op (by simp) (by simp)
            (balSplit_trans (ihFactor _ _ _ heq) (ihTermR _ _ _ _ h))
        · exact absurd h (by simp)
      · simp only [Option.some.injEq, Prod.mk.injEq] at h
        obtain ⟨h1, h2⟩ := h
        subst h2
        exact balSplit_refl _
    · intro toks e rest h
      rw [parseFactor_succ] at h
      split at h
      · rename_i t
        split at h
        · rename_i e2 r2 heq
          simp only [Option.some.injEq, Prod.mk.injEq] at h
          obtain ⟨h1, h2⟩ := h
          subst h2
          exact balSplit_cons_op (by simp) (by simp) (ihFactor _ _ _ heq)
        · exact absurd h (by simp)
      · rename_i t
        split at h
        · rename_i e2 r2 heq
          simp only [Option.some.injEq, Prod.mk.injEq] at h
          obtain ⟨h1, h2⟩ := h
          subst h2
          exact balSplit_cons_op (by simp) (by simp) (ihFactor _ _ _ heq)
        · exact absurd h (by simp)
      · rename_i t
        split at h
        · rename_i e2 r2 heq
          simp only [Option.some.injEq, Prod.mk.injEq] at h
          obtain ⟨h1, h2⟩ := h
          subst h2
          exact balSplit_cons_op (by simp) (by simp) (ihFactor _ _ _ heq)
        · exact absurd h (by simp)
      · exact ihPower _ _ _ h
    · intro toks e rest h
      rw [parsePower] at h
      split at h
      · rename_i e1 mid heq
        split at h
        · rename_i t2
          split at h
          · rename_i e2 r2 heq2
            simp only [Option.some.injEq, Prod.mk.injEq] at h
            obtain ⟨h1, h2⟩ := h
            subst h2
            exact balSplit_trans (ihPrimary _ _ _ heq)
              (balSplit_cons_op (by simp) (by simp) (ihFactor _ _ _ heq2))
          · exact absurd h (by simp)
        · simp only [Option.some.injEq, Prod.mk.injEq] at h
          obtain ⟨h1, h2⟩ := h
          subst h2
          exact ihPrimary _ _ _ heq
      · exact absurd h (by simp)
    · intro toks e rest h
      rw [parsePrimary] at h
      split at h
      · rename_i e1 mid heq
        exact balSplit_trans (ihAtom _ _ _ heq) (ihPrimaryR _ _ _ _ h)
      · exact absurd h (by simp)
    · intro acc toks e rest h
      rw [parsePrimaryRest_succ] at h
      split at h
      · rename_i t
        split at h
        · rename_i args mid heq
          exact balSplit_trans (balSplit_call (ihArgs _ _ _ heq)) (ihPrimaryR _ _ _ _ h)
        · exact absurd h (by simp)
      · simp only [Option.some.injEq, Prod.mk.injEq] at h
        obtain ⟨h1, h2⟩ := h
        subst h2
        exact balSplit_refl _
    · intro toks as rest h
      rw [parseArgs_succ] at h
      split at h
      · rename_i t
        simp only [Option.some.injEq, Prod.mk.injEq] at h
        obtain ⟨h1, h2⟩ := h
        subst h2
        exact argSplit_rparen _
      · split at h
        · rename_i e1 mid heq
          exact balSplit_argSplit_trans (ihSum _ _ _ heq) (ihArgsR _ _ _ _ h)
        · exact absurd h (by simp)
    · intro acc toks as rest h
      rw [parseArgsRest_succ] at h
      split at h
      · rename_i t
        split at h
        · rename_i e1 mid heq
          exact argSplit_cons_op (by simp) (by simp)
            (balSplit_argSplit_trans (ihSum _ _ _ heq) (ihArgsR _ _ _ _ h))
        · exact absurd h (by simp)
      · rename_i t
        simp only [Option.some.injEq, Prod.mk.injEq] at h
        obtain ⟨h1, h2⟩ := h
        subst h2
        exact argSplit_rparen _
      · exact absurd h (by simp)
    · intro toks e rest h
      rw [parseAtom_succ] at h
      split at h
      · rename_i c t
        simp only [Option.some.injEq, Prod.mk.injEq] at h
        obtain ⟨h1, h2⟩ := h
        subst h2
        exact balSplit_cons_op (by simp) (by simp) (balSplit_refl _)
      · rename_i sv t
        simp only [Option.some.injEq, Prod.mk.injEq] at h
        obtain ⟨h1, h2⟩ := h
        subst h2
        exact balSplit_cons_op (by simp) (by simp) (balSplit_refl _)
      · rename_i sv t
        split at h <;> try (split at h) <;> try (split at h)
        all_goals (
          simp only [Option.some.injEq, Prod.mk.injEq] at h
          obtain ⟨h1, h2⟩ := h
          subst h2
          exact balSplit_cons_op (by simp) (by simp) (balSplit_refl _))
      · rename_i t
        split at h
        · rename_i e1 mid heq
          split at h
          · rename_i r2
            simp only [Option.some.injEq, Prod.mk.injEq] at h
            obtain ⟨h1, h2⟩ := h
            subst h2
            exact balSplit_parens (ihSum _ _ _ heq)
          · exact absurd h (by simp)
        · exact absurd h (by simp)
      · exact absurd h (by simp)

theorem pyParse_balanced {s : String} {toks : List Tok} {e : PyExpr}
    (ht : tokenize s = some toks) (hp : pyParse s = some e) :
    cntL toks = cntR toks := by
  unfold pyParse at hp
  rw [ht] at hp
  simp only [] at hp
  cases hps : parseSum (parseFuel toks) toks with
  | none => rw [hps] at hp; simp at hp
  | some p =>
    obtain ⟨e1, rest⟩ := p
    rw [hps] at hp
    match rest, hps with
    | [], hps =>
      obtain ⟨pre, hpre, hcnt⟩ := (parse_balance (parseFuel toks)).1 toks e1 [] hps
      rw [List.append_nil] at hpre
      rw [hpre]
      exact hcnt
    | r :: rs, hps => simp at hp

/-! ### Trees containing rejected node kinds -/

/-- Does the tree contain an identifier, a function call, or a string
literal? -/
def containsBanned : PyExpr → Bool
  | .binOp _ l r => containsBanned l || containsBanned r
  | .unaryOp _ e => containsBanned e
  | .const c =>
    match c with
    | .strC _ => true
    | _ => false
  | .name _ => true
  | .call _ _ => true

theorem _eval_node_banned (fracPow : ℚ → ℚ → Except EvalErr PyNum) :
    ∀ e : PyExpr, containsBanned e = true →
      ∃ err, SafeEvaluator._eval_node fracPow e = .error err
  | .binOp op l r => by
    intro h
    rw [show containsBanned (.binOp op l r) =
      (containsBanned l || containsBanned r) from rfl] at h
    simp only [Bool.or_eq_true] at h
    show ∃ err, (match SafeEvaluator._bin_ops fracPow op with
      | some f => do
        let a ← SafeEvaluator._eval_node fracPow l
        let b ← SafeEvaluator._eval_node fracPow r
        f a b
      | none => .error .other) = .error err
    cases hop : SafeEvaluator._bin_ops fracPow op with
    | none => exact ⟨.other, rfl⟩
    | some f =>
      rcases h with h | h
      · obtain ⟨err, herr⟩ := _eval_node_banned fracPow l h
        exact ⟨err, by simp [herr, bind, Except.bind]⟩
      · cases hl : SafeEvaluator._eval_node fracPow l with
        | error err => exact ⟨err, by simp [hl, bind, Except.bind]⟩
        | ok a =>
          obtain ⟨err, herr⟩ := _eval_node_banned fracPow r h
          exact ⟨err, by simp [hl, herr, bind, Except.bind]⟩
  | .unaryOp op e => by
    intro h
    rw [show containsBanned (.unaryOp op e) = containsBanned e from rfl] at h
    show ∃ err, (match SafeEvaluator._unary_ops op with
      | some f => do
        let a ← SafeEvaluator._eval_node fracPow e
        pure (f a)
      | none => .error .other) = .error err
    cases hop : SafeEvaluator._unary_ops op with
    | none => exact ⟨.other, rfl⟩
    | some f =>
      obtain ⟨err, herr⟩ := _eval_node_banned fracPow e h
      exact ⟨err, by simp [herr, bind, Except.bind]⟩
  | .const c => by
    intro h
    cases c with
    | strC sv => exact ⟨.other, rfl⟩
    | intC n => exact absurd h (by simp [containsBanned])
    | floatC q => exact absurd h (by simp [containsBanned])
    | boolC b => exact absurd h (by simp [containsBanned])
    | noneC => exact absurd h (by simp [containsBanned])
  | .name id => fun _ => ⟨.other, rfl⟩
  | .call f args => fun _ => ⟨.other, rfl⟩

mutual

/-- Does the tree contain a `/` or `%` operation? -/
def containsDivMod : PyExpr → Bool
  | .binOp op l r =>
    op = BinOpKind.div || op = BinOpKind.mod || containsDivMod l || containsDivMod r
  | .unaryOp _ e => containsDivMod e
  | .const _ => false
  | .name _ => false
  | .call f args => containsDivMod f || containsDivModList args

/-- List version of `containsDivMod`. -/
def containsDivModList : List PyExpr → Bool
  | [] => false
  | e :: es => containsDivMod e || containsDivModList es

end

/-! ### Sign of the modulo result -/

theorem fmod_nonpos_of_neg (a : Int) : ∀ {b : Int}, b < 0 → a.fmod b ≤ 0 := by
  intro b hb
  cases b with
  | ofNat n => exact absurd hb (Int.not_lt.mpr (Int.ofNat_nonneg n))
  | negSucc n =>
    cases a with
    | ofNat m =>
      cases m with
      | zero => simp
      | succ m =>
        show Int.subNatNat (m % (n + 1)) n ≤ 0
        rw [Int.subNatNat_eq_coe]
        have : m % (n + 1) < n + 1 := Nat.mod_lt _ (by omega)
        omega
    | negSucc m =>
      show -((((m + 1) % (n + 1) : Nat) : Int)) ≤ 0
      omega

theorem qfmod_eq_mul_fract {a b : ℚ} (hb : b ≠ 0) :
    qfmod a b = b * Int.fract (a / b) := by
  unfold qfmod Int.fract
  field_simp

theorem qfmod_nonneg_of_pos {a b : ℚ} (hb : 0 < b) : 0 ≤ qfmod a b := by
  rw [qfmod_eq_mul_fract (ne_of_gt hb)]
  exact mul_nonneg (le_of_lt hb) (Int.fract_nonneg _)

theorem qfmod_nonpos_of_neg {a b : ℚ} (hb : b < 0) : qfmod a b ≤ 0 := by
  rw [qfmod_eq_mul_fract (ne_of_lt hb)]
  exact mul_nonpos_of_nonpos_of_nonneg (le_of_lt hb) (Int.fract_nonneg _)

/-! ## The UI shell (`CalculatorApp`)

Only the state the settled claims touch is modelled: the display buffer
(`self.var`) and the history list (`self.history`, mirrored by the
listbox).  Dialogs are modelled as an output value. -/

/-- The source's `CalculatorApp._add_history`: append, then drop the oldest entry when
the bound of 50 is exceeded. -/
def addHistory (history : List String) (item : String) : List String :=
  if 50 < (history ++ [item]).length then (history ++ [item]).tail
  else history ++ [item]

/-- Mutable state of the app: display buffer and history list. -/
structure AppState where
  var : String
  history : List String
deriving DecidableEq

/-- Dialog shown by one `evaluate` call: none, `"Math Error"` for
`ZeroDivisionError`, `"Input Error"` for `ValueError`.  (The source's
final generic `except` branch is unreachable in the embedding because the
evaluator's failures are exactly these two.) -/
inductive Dialog where
  | noDialog
  | mathError (msg : String)
  | inputError (msg : String)
deriving DecidableEq

/-- Model of `str(result)` for the rendered display value; `float` rendering is
the host's `repr` shortest round-trip form, kept abstract. -/
def pyStr (floatRepr : ℚ → String) : PyNum → String
  | .bool b => if b then ("True") else ("False")
  | .int n => pyIntRepr n
  | .float q => floatRepr q

/-- Whitespace stripped by Python's `str.strip` (the common ASCII cases;
calculator input cannot contain others). -/
def isStripChar (c : Char) : Bool := c = ' ' || c = '\t' || c = '\n' || c = '\r'

/-- Python's `str.strip()`: drop whitespace from both ends. -/
def pyStrip (s : String) : String :=
  String.mk (((s.data.dropWhile isStripChar).reverse.dropWhile isStripChar).reverse)

/-- The source's `CalculatorApp.evaluate`: strip the buffer, return silently when it
is empty, otherwise evaluate; on success record history and replace the
buffer with the rendered result, on failure show a dialog and leave all
state untouched. -/
def CalculatorApp.evaluate (fracPow : ℚ → ℚ → Except EvalErr PyNum)
    (floatRepr : ℚ → String) (st : AppState) : AppState × Dialog :=
  let expr := pyStrip st.var
  if expr = ("") then (st, .noDialog)
  else
    match SafeEvaluator.eval fracPow expr with
    | .ok result =>
      ({ var := pyStr floatRepr result,
         history := addHistory st.history
           (expr ++ (" = ") ++ pyStr floatRepr result) }, .noDialog)
    | .error .divisionByZero => (st, .mathError (CalcErr.message .divisionByZero))
    | .error .invalidExpression => (st, .inputError (CalcErr.message .invalidExpression))

theorem addHistory_length {h : List String} (x : String) (hl : h.length ≤ 50) :
    (addHistory h x).length ≤ 50 := by
  unfold addHistory
  split
  · next hlen => simp at hlen ⊢; omega
  · next hlen => simp at hlen ⊢; omega

theorem addHistory_lt {h : List String} (x : String) (hl : h.length < 50) :
    addHistory h x = h ++ [x] := by
  unfold addHistory
  rw [if_neg (by simp; omega)]

theorem addHistory_full {h : List String} (x : String) (hl : h.length = 50) :
    addHistory h x = h.tail ++ [x] := by
  unfold addHistory
  rw [if_pos (by simp; omega)]
  cases h with
  | nil => simp at hl
  | cons a t => simp

theorem foldl_addHistory_small : ∀ (xs : List String) (l : List String),
    l.length + xs.length ≤ 50 → xs.foldl addHistory l = l ++ xs := by
  intro xs
  induction xs with
  | nil => intro l h; simp
  | cons x t ih =>
    intro l h
    simp only [List.foldl_cons]
    rw [addHistory_lt x (by simp at h; omega)]
    rw [ih (l ++ [x]) (by simp at h ⊢; omega)]
    simp

theorem foldl_addHistory_51 (xs : List String) (h : xs.length = 51) :
    xs.foldl addHistory [] = xs.tail := by
  have hne : xs ≠ [] := by intro he; rw [he] at h; simp at h
  obtain ⟨ys, z, hyz⟩ : ∃ ys z, xs = ys ++ [z] := by
    refine ⟨xs.dropLast, xs.getLast hne, ?_⟩
    rw [List.dropLast_append_getLast hne]
  have hys : ys.length = 50 := by
    rw [hyz] at h
    simp at h
    omega
  have hysne : ys ≠ [] := by intro he; rw [he] at hys; simp at hys
  rw [hyz, List.foldl_append]
  rw [foldl_addHistory_small ys [] (by simp [hys])]
  simp only [List.nil_append, List.foldl_cons, List.foldl_nil]
  rw [addHistory_full z hys]
  cases ys with
  | nil => exact absurd rfl hysne
  | cons a t => simp

theorem pyIntRepr_zero : pyIntRepr 0 = ("0") := by
  unfold pyIntRepr
  rw [if_neg (by decide), digitsOfNat, if_pos (by decide)]
  rfl

/-! ## The claims -/

/-- C1, counterexample to the claim as stated: `"1/0+x"` contains the
identifier `x`, yet `evaluate` raises DivisionByZero (the
`ZeroDivisionError` from `1/0` propagates before the `Name` node is
reached), not InvalidExpression. -/
theorem claim_C1_counterexample :
    (pyParse ("1/0+x")).map containsBanned = some true ∧
    SafeEvaluator.eval fracPowDefault ("1/0+x") = .error .divisionByZero ∧
    CalcErr.divisionByZero ≠ CalcErr.invalidExpression :=
  ⟨rfl, rfl, by decide⟩

/-- C1 (amended): an expression containing an identifier, call or string
literal never evaluates to a value — evaluation raises an error, which is
InvalidExpression unless a division by zero occurs earlier in evaluation
order; and `_eval_node` rejects every node kind outside
{BinOp with `+ - * / % **`, UnaryOp with `+ -`, int/float constant}
with `ValueError`, as witnessed on each rejected kind, and on the inputs
`"x+1"` and `"__import__('os')"`. -/
theorem claim_C1_amended :
    (∀ (fracPow : ℚ → ℚ → Except EvalErr PyNum) (e : PyExpr),
      containsBanned e = true →
      ∃ err, SafeEvaluator._eval_node fracPow e = .error err) ∧
    (∀ (fracPow : ℚ → ℚ → Except EvalErr PyNum) (sv : String),
      SafeEvaluator._eval_node fracPow (.name sv) = .error .other) ∧
    (∀ (fracPow : ℚ → ℚ → Except EvalErr PyNum) (f : PyExpr) (args : List PyExpr),
      SafeEvaluator._eval_node fracPow (.call f args) = .error .other) ∧
    (∀ (fracPow : ℚ → ℚ → Except EvalErr PyNum) (sv : String),
      SafeEvaluator._eval_node fracPow (.const (.strC sv)) = .error .other) ∧
    (∀ fracPow : ℚ → ℚ → Except EvalErr PyNum,
      SafeEvaluator._eval_node fracPow (.const .noneC) = .error .other) ∧
    (∀ (fracPow : ℚ → ℚ → Except EvalErr PyNum) (l r : PyExpr),
      SafeEvaluator._eval_node fracPow (.binOp .floorDiv l r) = .error .other) ∧
    (∀ (fracPow : ℚ → ℚ → Except EvalErr PyNum) (e : PyExpr),
      SafeEvaluator._eval_node fracPow (.unaryOp .invert e) = .error .other) ∧
    SafeEvaluator.eval fracPowDefault ("x+1") = .error .invalidExpression ∧
    SafeEvaluator.eval fracPowDefault ("__import__('os')") = .error .invalidExpression :=
  ⟨_eval_node_banned, fun _ _ => rfl, fun _ _ _ => rfl, fun _ _ => rfl, fun _ => rfl,
    fun _ _ _ => rfl, fun _ _ => rfl, rfl, rfl⟩

/-- C1 witness: the universally quantified part of the amended claim at
the concrete tree `Name "x"`. -/
theorem claim_C1_witness :
    containsBanned (PyExpr.name ("x")) = true ∧
    ∃ err, SafeEvaluator._eval_node fracPowDefault (PyExpr.name ("x")) = .error err :=
  ⟨rfl, claim_C1_amended.1 fracPowDefault (PyExpr.name ("x")) rfl⟩

/-- C2, counterexample to "DivisionByZero is raised exactly when the
right operand of a `/` or `%` operation evaluates to zero": `"0**-1"`
contains no `/` or `%` at all, yet raises DivisionByZero (CPython's
`ZeroDivisionError` for a zero base and negative exponent). -/
theorem claim_C2_counterexample :
    (pyParse ("0**-1")).map containsDivMod = some false ∧
    SafeEvaluator.eval fracPowDefault ("0**-1") = .error .divisionByZero :=
  ⟨rfl, rfl⟩

/-- C2 (amended): `evaluate(f"{a}/0")` and `evaluate(f"{a}%0")` raise
DivisionByZero for every integer literal `a`; a `/` or `%` applied with a
zero right operand always raises `ZeroDivisionError`, as does `**` with
zero base and negative exponent; and DivisionByZero is always
distinguishable from InvalidExpression and carries its fixed message. -/
theorem claim_C2_amended :
    (∀ (fracPow : ℚ → ℚ → Except EvalErr PyNum) (a : Int),
      SafeEvaluator.eval fracPow (pyIntRepr a ++ ("/0")) = .error .divisionByZero ∧
      SafeEvaluator.eval fracPow (pyIntRepr a ++ ("%0")) = .error .divisionByZero) ∧
    (∀ v w : PyNum, w.toQ = 0 →
      pyDiv v w = .error .zeroDiv ∧ pyMod v w = .error .zeroDiv) ∧
    (∀ (fracPow : ℚ → ℚ → Except EvalErr PyNum) (v w : PyNum),
      v.toQ = 0 → w.toQ < 0 → pyPow fracPow v w = .error .zeroDiv) ∧
    CalcErr.divisionByZero ≠ CalcErr.invalidExpression ∧
    CalcErr.message .divisionByZero = ("Division by zero is not allowed.") := by
  refine ⟨?_, ?_, ?_, by decide, rfl⟩
  · intro fracPow a
    constructor
    · have h := eval_int_div fracPow a 0
      rw [if_pos rfl] at h
      rw [String.append_assoc, pyIntRepr_zero] at h
      rw [show (String.mk ['/'] ++ ("0") : String) = ("/0") from rfl] at h
      exact h
    · have h := eval_int_mod fracPow a 0
      rw [if_pos rfl] at h
      rw [String.append_assoc, pyIntRepr_zero] at h
      rw [show (String.mk ['%'] ++ ("0") : String) = ("%0") from rfl] at h
      exact h
  · intro v w hw
    constructor
    · unfold pyDiv
      rw [if_pos hw]
    · unfold pyMod
      rw [if_pos hw]
  · intro fracPow v w hv hw
    unfold pyPow
    rw [if_pos ⟨hv, hw⟩]

/-- C2 witness: the division and modulo parts at concrete operands `7`
and `0`, and the power part at `0 ** -1`. -/
theorem claim_C2_witness :
    ((PyNum.int 0).toQ = 0 ∧
      pyDiv (PyNum.int 7) (PyNum.int 0) = .error .zeroDiv ∧
      pyMod (PyNum.int 7) (PyNum.int 0) = .error .zeroDiv) ∧
    pyPow fracPowDefault (PyNum.int 0) (PyNum.int (-1)) = .error .zeroDiv := by
  refine ⟨⟨rfl, claim_C2_amended.2.1 (PyNum.int 7) (PyNum.int 0) rfl⟩, ?_⟩
  exact claim_C2_amended.2.2.1 fracPowDefault (PyNum.int 0) (PyNum.int (-1)) rfl
    (by norm_num [PyNum.toQ])

/-- C3: `evaluate(f"{a}/{b}")` is the exact quotient tagged as a float
for every pair of integer literals with `b ≠ 0`; at the operator level a
`/` with nonzero right operand always returns `float(toQ v / toQ w)` and
every successful `/` result is a float (true division, never floor
division). -/
theorem claim_C3_true_division :
    (∀ (fracPow : ℚ → ℚ → Except EvalErr PyNum) (a b : Int), b ≠ 0 →
      SafeEvaluator.eval fracPow (pyIntRepr a ++ ("/") ++ pyIntRepr b) =
        .ok (.float ((a : ℚ) / (b : ℚ)))) ∧
    (∀ v w : PyNum, w.toQ ≠ 0 → pyDiv v w = .ok (.float (v.toQ / w.toQ))) ∧
    (∀ v w : PyNum, ∀ q, pyDiv v w = .ok q → q.isFloat = true) := by
  refine ⟨?_, ?_, ?_⟩
  · intro fracPow a b hb
    have h := eval_int_div fracPow a b
    rw [if_neg hb] at h
    rw [show (("/") : String) = String.mk ['/'] from rfl]
    exact h
  · intro v w hw
    unfold pyDiv
    rw [if_neg hw]
  · intro v w q h
    unfold pyDiv at h
    split at h
    · exact absurd h (by simp)
    · simp only [Except.ok.injEq] at h
      rw [← h]
      rfl

/-- C3 witness: `evaluate("1/2")` (as rendered integer literals) is the
float `1/2`. -/
theorem claim_C3_witness :
    (2 : Int) ≠ 0 ∧
    SafeEvaluator.eval fracPowDefault (pyIntRepr 1 ++ ("/") ++ pyIntRepr 2) =
      .ok (.float ((1 : ℚ) / (2 : ℚ))) :=
  ⟨by decide, claim_C3_true_division.1 fracPowDefault 1 2 (by decide)⟩

/-- C4, counterexample to the stated precedence order: `"-2**2"` parses
as `-(2**2)` and evaluates to `-4`, not as `(-2)**2 = 4` — unary minus
does *not* bind tighter than `**` on its left. -/
theorem claim_C4_counterexample :
    pyParse ("-2**2") = some (.unaryOp .usub
      (.binOp .pow (.const (.intC 2)) (.const (.intC 2)))) ∧
    SafeEvaluator.eval fracPowDefault ("-2**2") = .ok (.int (-4)) ∧
    SafeEvaluator.eval fracPowDefault ("-2**2") ≠ .ok (.int 4) := by
  refine ⟨rfl, rfl, ?_⟩
  rw [show SafeEvaluator.eval fracPowDefault ("-2**2") =
    Except.ok (PyNum.int (-4)) from rfl]
  simp

/-- C4 (amended): precedence as Python parses it — `**` right-associative
and binding tighter than a unary sign on its left (whose operand may
itself be signed), then `* / %` left-associative, then binary `+ -`
left-associative, parentheses overriding; in particular `2+3*4 = 14` and
`-2**2` parses as `-(2**2) = -4`. -/
theorem claim_C4_amended :
    SafeEvaluator.eval fracPowDefault ("2+3*4") = .ok (.int 14) ∧
    SafeEvaluator.eval fracPowDefault ("2*3+4") = .ok (.int 10) ∧
    SafeEvaluator.eval fracPowDefault ("(1+2)*3") = .ok (.int 9) ∧
    SafeEvaluator.eval fracPowDefault ("2-3-4") = .ok (.int (-5)) ∧
    SafeEvaluator.eval fracPowDefault ("2**3**2") = .ok (.int 512) ∧
    SafeEvaluator.eval fracPowDefault ("-2**2") = .ok (.int (-4)) ∧
    SafeEvaluator.eval fracPowDefault ("2**-2") = .ok (.float (1/4)) ∧
    SafeEvaluator.eval fracPowDefault ("-3*2") = .ok (.int (-6)) ∧
    SafeEvaluator.eval fracPowDefault ("-5 + 3") = .ok (.int (-2)) ∧
    SafeEvaluator.eval fracPowDefault ("12/3/2") = .ok (.float 2) ∧
    pyParse ("2+3*4") = some (.binOp .add (.const (.intC 2))
      (.binOp .mult (.const (.intC 3)) (.const (.intC 4)))) ∧
    pyParse ("2-3-4") = some (.binOp .sub
      (.binOp .sub (.const (.intC 2)) (.const (.intC 3))) (.const (.intC 4))) ∧
    pyParse ("2**3**2") = some (.binOp .pow (.const (.intC 2))
      (.binOp .pow (.const (.intC 3)) (.const (.intC 2)))) := by
  refine ⟨rfl, rfl, rfl, rfl, rfl, rfl, ?_, rfl, rfl, ?_, rfl, rfl, rfl⟩
  · have h : pyParse ("2**-2") = some (.binOp .pow (.const (.intC 2))
      (.unaryOp .usub (.const (.intC 2)))) := rfl
    rw [SafeEvaluator.eval, h]
    norm_num [SafeEvaluator._eval_node, SafeEvaluator._bin_ops, SafeEvaluator._unary_ops,
      pyPow, pyNeg, PyNum.toQ, PyConst.isNum, PyConst.val, PyNum.intLike, bind,
      Except.bind, pure, Except.pure]
  · have h : pyParse ("12/3/2") = some (.binOp .div
      (.binOp .div (.const (.intC 12)) (.const (.intC 3))) (.const (.intC 2))) := rfl
    rw [SafeEvaluator.eval, h]
    norm_num [SafeEvaluator._eval_node, SafeEvaluator._bin_ops, pyDiv, PyNum.toQ,
      PyConst.isNum, PyConst.val, PyNum.intLike, bind, Except.bind]

/-- C5, counterexample: `evaluate("-7%3")` is `2`, which is positive —
Python's `%` takes the sign of the divisor, not of the dividend as the
claim states. -/
theorem claim_C5_counterexample :
    SafeEvaluator.eval fracPowDefault ("-7%3") = .ok (.int 2) ∧
    ¬ ((2 : Int) ≤ 0) :=
  ⟨rfl, by decide⟩

/-- C5 (amended): for integer literals `a`, `b` with `b ≠ 0`,
`evaluate(f"{a}%{b}")` is the floor-division remainder `Int.fmod a b`,
whose sign follows the *divisor* `b` (nonnegative for `b > 0`,
nonpositive for `b < 0`); likewise at the operator level for any numeric
operands including floats. -/
theorem claim_C5_amended :
    (∀ (fracPow : ℚ → ℚ → Except EvalErr PyNum) (a b : Int), b ≠ 0 →
      SafeEvaluator.eval fracPow (pyIntRepr a ++ ("%") ++ pyIntRepr b) =
        .ok (.int (Int.fmod a b)) ∧
      (0 < b → 0 ≤ Int.fmod a b) ∧ (b < 0 → Int.fmod a b ≤ 0)) ∧
    (∀ v w : PyNum, w.toQ ≠ 0 → ∀ q, pyMod v w = .ok q →
      (0 < w.toQ → 0 ≤ q.toQ) ∧ (w.toQ < 0 → q.toQ ≤ 0)) := by
  constructor
  · intro fracPow a b hb
    refine ⟨?_, fun hpos => Int.fmod_nonneg' a hpos,
      fun hneg => fmod_nonpos_of_neg a hneg⟩
    have h := eval_int_mod fracPow a b
    rw [if_neg hb] at h
    rw [show (("%") : String) = String.mk ['%'] from rfl]
    exact h
  · intro v w hw q h
    unfold pyMod at h
    rw [if_neg hw] at h
    split at h
    · rename_i m n hm hn
      simp only [Except.ok.injEq] at h
      rw [← h]
      have hwn : w.toQ = (n : ℚ) := by
        cases w with
        | bool b =>
          cases b <;> simp [PyNum.intLike] at hn <;> simp [PyNum.toQ, ← hn]
        | int k =>
          simp [PyNum.intLike] at hn
          simp [PyNum.toQ, hn]
        | float q2 => simp [PyNum.intLike] at hn
      constructor
      · intro hpos
        rw [hwn] at hpos
        have : 0 < n := by exact_mod_cast hpos
        show (0 : ℚ) ≤ ((Int.fmod m n : Int) : ℚ)
        exact_mod_cast Int.fmod_nonneg' m this
      · intro hneg
        rw [hwn] at hneg
        have : n < 0 := by exact_mod_cast hneg
        show ((Int.fmod m n : Int) : ℚ) ≤ 0
        exact_mod_cast fmod_nonpos_of_neg m this
    · simp only [Except.ok.injEq] at h
      rw [← h]
      show (0 < w.toQ → 0 ≤ qfmod v.toQ w.toQ) ∧ (w.toQ < 0 → qfmod v.toQ w.toQ ≤ 0)
      exact ⟨fun hpos => qfmod_nonneg_of_pos hpos, fun hneg => qfmod_nonpos_of_neg hneg⟩

/-- C5 witness: the amended claim at `a = -7`, `b = 3`, where the result
`2` is indeed nonnegative. -/
theorem claim_C5_witness :
    (3 : Int) ≠ 0 ∧
    (SafeEvaluator.eval fracPowDefault (pyIntRepr (-7) ++ ("%") ++ pyIntRepr 3) =
      .ok (.int (Int.fmod (-7) 3)) ∧
    (0 < (3 : Int) → 0 ≤ Int.fmod (-7) 3) ∧
    ((3 : Int) < 0 → Int.fmod (-7) 3 ≤ 0)) :=
  ⟨by decide, claim_C5_amended.1 fracPowDefault (-7) 3 (by decide)⟩

/-- C6: the empty input, any input whose parentheses are unbalanced (the
`(` and `)` token counts differ), any input the tokenizer rejects, and in
general any input that fails to parse, all make `eval` raise
InvalidExpression — parsing never succeeds on such inputs.  The rejected
numeric tokens are exactly CPython's: malformed exponents (`"1.2e"`),
leading-zero decimal integers (`"007"`) and misplaced digit-grouping
underscores (`"1__0"`) are rejected, while grouped (`"1_0"` = 10) and
hexadecimal (`"0x10"` = 16) literals evaluate. -/
theorem claim_C6_invalid_inputs :
    SafeEvaluator.eval fracPowDefault ("") = .error .invalidExpression ∧
    (∀ (fracPow : ℚ → ℚ → Except EvalErr PyNum) (s : String) (toks : List Tok),
      tokenize s = some toks → cntL toks ≠ cntR toks →
      SafeEvaluator.eval fracPow s = .error .invalidExpression) ∧
    (∀ (fracPow : ℚ → ℚ → Except EvalErr PyNum) (s : String),
      tokenize s = none → SafeEvaluator.eval fracPow s = .error .invalidExpression) ∧
    (∀ (fracPow : ℚ → ℚ → Except EvalErr PyNum) (s : String),
      pyParse s = none → SafeEvaluator.eval fracPow s = .error .invalidExpression) ∧
    SafeEvaluator.eval fracPowDefault ("(1+2") = .error .invalidExpression ∧
    SafeEvaluator.eval fracPowDefault ("1.2e") = .error .invalidExpression ∧
    SafeEvaluator.eval fracPowDefault ("007") = .error .invalidExpression ∧
    SafeEvaluator.eval fracPowDefault ("1__0") = .error .invalidExpression ∧
    SafeEvaluator.eval fracPowDefault ("1_0") = .ok (.int 10) ∧
    SafeEvaluator.eval fracPowDefault ("0x10") = .ok (.int 16) := by
  have hnone : ∀ (fracPow : ℚ → ℚ → Except EvalErr PyNum) (s : String),
      pyParse s = none → SafeEvaluator.eval fracPow s = .error .invalidExpression := by
    intro fracPow s hp
    unfold SafeEvaluator.eval
    rw [hp]
  refine ⟨rfl, ?_, ?_, hnone, rfl, rfl, rfl, rfl, rfl, rfl⟩
  · intro fracPow s toks ht hcnt
    cases hp : pyParse s with
    | some e => exact absurd (pyParse_balanced ht hp) hcnt
    | none => exact hnone fracPow s hp
  · intro fracPow s ht
    apply hnone
    unfold pyParse
    rw [ht]

/-- C6 witness: the unbalanced-parentheses part at the concrete input
`"(1+2"`. -/
theorem claim_C6_witness :
    tokenize ("(1+2") =
      some [Tok.lparen, Tok.num (.intC 1), Tok.plus, Tok.num (.intC 2)] ∧
    SafeEvaluator.eval fracPowDefault ("(1+2") = .error .invalidExpression :=
  ⟨rfl, claim_C6_invalid_inputs.2.1 fracPowDefault ("(1+2")
    [Tok.lparen, Tok.num (.intC 1), Tok.plus, Tok.num (.intC 2)] rfl (by decide)⟩

/-- C8: `_add_history` keeps the history at no more than 50 entries —
below the bound it appends, at the bound it appends and evicts exactly
the oldest entry, and 51 sequential additions starting from an empty
history leave exactly the 50 most recent entries in order. -/
theorem claim_C8_history_bound :
    (∀ (h : List String) (x : String), h.length ≤ 50 →
      (addHistory h x).length ≤ 50) ∧
    (∀ (h : List String) (x : String), h.length < 50 →
      addHistory h x = h ++ [x]) ∧
    (∀ (h : List String) (x : String), h.length = 50 →
      addHistory h x = h.tail ++ [x]) ∧
    (∀ xs : List String, xs.length = 51 →
      xs.foldl addHistory [] = xs.tail ∧ (xs.foldl addHistory []).length = 50) := by
  refine ⟨fun h x hl => addHistory_length x hl,
    fun h x hl => addHistory_lt x hl,
    fun h x hl => addHistory_full x hl, ?_⟩
  intro xs hlen
  have h1 := foldl_addHistory_51 xs hlen
  refine ⟨h1, ?_⟩
  rw [h1]
  cases xs with
  | nil => simp at hlen
  | cons a t =>
    simp at hlen ⊢
    omega

/-- C8 witness: 51 sequential additions of a concrete entry leave the 50
most recent ones. -/
theorem claim_C8_witness :
    (List.replicate 51 ("1 = 1")).length = 51 ∧
    (List.replicate 51 ("1 = 1")).foldl addHistory [] =
      (List.replicate 51 ("1 = 1")).tail :=
  ⟨by simp, (claim_C8_history_bound.2.2.2 (List.replicate 51 ("1 = 1")) (by simp)).1⟩

/-- C9: a failing evaluation is atomic — whenever the evaluator raises,
`CalculatorApp.evaluate` leaves the whole state (display buffer and
history) exactly as it was; an empty (stripped) buffer also changes
nothing; and contrapositively, any state change implies the evaluation
succeeded. -/
theorem claim_C9_failure_atomic :
    (∀ (fracPow : ℚ → ℚ → Except EvalErr PyNum) (floatRepr : ℚ → String)
      (st : AppState) (err : CalcErr),
      SafeEvaluator.eval fracPow (pyStrip st.var) = .error err →
      (CalculatorApp.evaluate fracPow floatRepr st).1 = st) ∧
    (∀ (fracPow : ℚ → ℚ → Except EvalErr PyNum) (floatRepr : ℚ → String)
      (st : AppState), pyStrip st.var = ("") →
      CalculatorApp.evaluate fracPow floatRepr st = (st, .noDialog)) ∧
    (∀ (fracPow : ℚ → ℚ → Except EvalErr PyNum) (floatRepr : ℚ → String)
      (st : AppState),
      (CalculatorApp.evaluate fracPow floatRepr st).1 ≠ st →
      ∃ v, SafeEvaluator.eval fracPow (pyStrip st.var) = .ok v) := by
  refine ⟨?_, ?_, ?_⟩
  · intro fracPow floatRepr st err h
    simp only [CalculatorApp.evaluate]
    split
    · rfl
    · rw [h]
      cases err <;> rfl
  · intro fracPow floatRepr st h
    simp only [CalculatorApp.evaluate]
    rw [if_pos h]
  · intro fracPow floatRepr st h
    simp only [CalculatorApp.evaluate] at h
    split at h
    · exact absurd rfl h
    · cases heval : SafeEvaluator.eval fracPow (pyStrip st.var) with
      | ok v => exact ⟨v, rfl⟩
      | error e =>
        rw [heval] at h
        cases e <;> exact absurd rfl h

/-- C9 witness: the failing input `"x+1"` leaves the state `⟨"x+1", []⟩`
unchanged. -/
theorem claim_C9_witness :
    SafeEvaluator.eval fracPowDefault (pyStrip (AppState.mk ("x+1") []).var) =
      .error .invalidExpression ∧
    (CalculatorApp.evaluate fracPowDefault (fun _ => ("")) (AppState.mk ("x+1") [])).1 =
      AppState.mk ("x+1") [] :=
  ⟨rfl, claim_C9_failure_atomic.1 fracPowDefault (fun _ => (""))
    (AppState.mk ("x+1") []) .invalidExpression rfl⟩

/-- C10: the boolean literals pass the evaluator's literal check because
Python's `bool` is a subclass of `int` — `evaluate("True")` returns the
bool `True` (numerically 1), `evaluate("True+True")` returns the int `2`,
and the `isinstance(value, (int, float))` guard accepts bool constants. -/
theorem claim_C10_bool_literals :
    SafeEvaluator.eval fracPowDefault ("True") = .ok (.bool true) ∧
    SafeEvaluator.eval fracPowDefault ("False") = .ok (.bool false) ∧
    (PyNum.bool true).toQ = 1 ∧
    SafeEvaluator.eval fracPowDefault ("True+True") = .ok (.int 2) ∧
    PyConst.isNum (.boolC true) = true :=
  ⟨rfl, rfl, rfl, rfl, rfl⟩

end TkCalc
